import Mathlib

/-!
PlaneImpactResponse: a shallow embedding and its verified properties.

The development embeds `src/src/PlaneImpactResponse.cxx` (construction of the
per-path impact responses, the symmetry folded `m_bywire` index, and the two
lookups `closest` and `bounded`) and the buffering fan-out of
`src/inc/WireCellUtil/Fanout.h`.

Modelling conventions
* `double` is modelled by exact rationals `ℚ`; no rounding error is modelled.
  Division follows the field convention of `ℚ` (a zero divisor yields `0`,
  where IEEE arithmetic yields an infinity or NaN).
* `int` is modelled by unbounded `ℤ`, container sizes by `ℕ`.
* A pointer to an `ImpactResponse` is an `Option ImpactResponse`, `none`
  being `nullptr`.
* Code that can fail returns `Except Failure _`: `Failure.abort` is a failed
  `Assert`, `Failure.undefined` is an out-of-range container access (undefined
  behaviour in C++).
-/

namespace WireCell

/-! ## Scalars -/

/-- C `round` on exact values: nearest integer, halfway cases away from zero. -/
def cround (x : ℚ) : ℤ :=
  if 0 ≤ x then ⌊x + 1 / 2⌋ else -⌊-x + 1 / 2⌋

/-- Conversion `int(double)`: truncation toward zero. -/
def ctrunc (x : ℚ) : ℤ :=
  if 0 ≤ x then ⌊x⌋ else ⌈x⌉

/-- A complex sample of a spectrum (`std::complex`), with exact parts. -/
structure Cplx where
  re : ℚ
  im : ℚ
deriving DecidableEq, Repr

/-- Complex product, as used by `spec[find] *= elec[find]`. -/
def Cplx.mul (a b : Cplx) : Cplx :=
  ⟨a.re * b.re - a.im * b.im, a.re * b.im + a.im * b.re⟩

/-- The two ways a run can stop without a result. -/
inductive Failure where
  | abort
  | undefined
deriving DecidableEq, Repr

deriving instance DecidableEq for Except

/-- Read `xs[i]` for a C++ `int` index; out of range is undefined behaviour. -/
def vecAt {α : Type} (xs : List α) (i : ℤ) : Except Failure α :=
  if 0 ≤ i then
    match xs[i.toNat]? with
    | some a => Except.ok a
    | none => Except.error Failure.undefined
  else Except.error Failure.undefined

/-! ## Input schema and external collaborators -/

/-- Modelled from the spec: `Response::Schema::PathResponse` (header absent);
one tabulated path with its transverse position and current trace. -/
structure PathResponse where
  current : List ℚ
  pitchpos : ℚ
deriving DecidableEq, Repr

/-- Modelled from the spec: `Response::Schema::PlaneResponse` (header absent);
the ordered paths of one plane and its nominal wire pitch. -/
structure PlaneResponse where
  paths : List PathResponse
  pitch : ℚ
deriving DecidableEq, Repr

/-- Modelled from the spec: `Response::Schema::FieldResponse` (header absent);
the planes and the global timing metadata. -/
structure FieldResponse where
  planes : List PlaneResponse
  tstart : ℚ
  period : ℚ
deriving DecidableEq, Repr

/-- Modelled from the spec: the uniform binning utility `Binning` (header
absent): bin count (a natural number here) and the two edges of the covered
window. -/
structure Binning where
  nbins : ℕ
  minval : ℚ
  maxval : ℚ
deriving DecidableEq, Repr

/-- Modelled from the spec: `Binning::binsize`, the width of one bin. -/
def Binning.binsize (b : Binning) : ℚ :=
  (b.maxval - b.minval) / b.nbins

/-- Modelled from the spec: `Binning::center`, the centre of bin `ind`. -/
def Binning.center (b : Binning) (ind : ℕ) : ℚ :=
  b.minval + ((ind : ℚ) + 1 / 2) * b.binsize

/-- The collaborators the constructor calls but that live outside the
component: the unit constant `units::us`, the forward transform
`Waveform::dft`, and `Response::ColdElec(gain, shaping).generate(tbins)`. -/
structure Collaborators where
  us : ℚ
  dft : List ℚ → List Cplx
  coldElec : ℚ → ℚ → Binning → List ℚ

/-! ## State -/

/-- Modelled from the spec: `ImpactResponse` (header absent), built in the
source by `new ImpactResponse(ipath, spec)`. -/
structure ImpactResponse where
  index : ℤ
  spectrum : List Cplx
deriving DecidableEq, Repr

/-- The members of `PlaneImpactResponse` that the lookups read. -/
structure PlaneImpactResponse where
  m_ir : List ImpactResponse
  m_bywire : List (List ℤ)
  m_half_extent : ℚ
  m_pitch : ℚ
  m_impact : ℚ
deriving DecidableEq, Repr

/-! ## Construction -/

/-- The inner loop `for rind < rawresp_size`: accumulate the native samples
into the target bins; the `Assert` on the bin index aborts. -/
def resampleLoop (rawresp_bins : Binning) (tick : ℚ) (ntbins : ℕ)
    (current : List ℚ) : List ℕ → List ℚ → Except Failure (List ℚ)
  | [], wave => Except.ok wave
  | rind :: rest, wave =>
    let time := rawresp_bins.center rind
    let bin := ctrunc (time / tick)
    if bin < 0 ∨ bin ≥ (ntbins : ℤ) then Except.error Failure.abort
    else
      match current[rind]? with
      | none => Except.error Failure.undefined
      | some c =>
        resampleLoop rawresp_bins tick ntbins current rest
          (wave.set bin.toNat (wave.getD bin.toNat 0 + c))

/-- The loop `for find < ntbins: spec[find] *= elec[find]`. -/
def scaleLoop (elec : List Cplx) : List ℕ → List Cplx → Except Failure (List Cplx)
  | [], spec => Except.ok spec
  | f :: rest, spec =>
    match spec[f]?, elec[f]? with
    | some s, some e => scaleLoop elec rest (spec.set f (s.mul e))
    | _, _ => Except.error Failure.undefined

/-- The spectrum the path loop computes for one path: resample the trace onto
the target binning (`wave`), transform it, and when `gain > 0` multiply it bin
by bin with the electronics spectrum. -/
def spectrumOf (env : Collaborators) (rawresp_bins : Binning)
    (rawresp_size : ℕ) (tick : ℚ) (ntbins : ℕ) (gain : ℚ) (elec : List Cplx)
    (path : PathResponse) : Except Failure (List Cplx) :=
  match resampleLoop rawresp_bins tick ntbins path.current
      (List.range rawresp_size) (List.replicate ntbins 0) with
  | Except.error e => Except.error e
  | Except.ok wave =>
    let spec := env.dft wave
    if gain > 0 then scaleLoop elec (List.range ntbins) spec else Except.ok spec

/-- The body of the path loop after the wire bookkeeping: compute the spectrum
and wrap it as `new ImpactResponse(ipath, spec)`. -/
def makeImpactResponse (env : Collaborators) (rawresp_bins : Binning)
    (rawresp_size : ℕ) (tick : ℚ) (ntbins : ℕ) (gain : ℚ) (elec : List Cplx)
    (ipath : ℕ) (path : PathResponse) : Except Failure ImpactResponse :=
  match spectrumOf env rawresp_bins rawresp_size tick ntbins gain elec path with
  | Except.error e => Except.error e
  | Except.ok spec => Except.ok ⟨(ipath : ℤ), spec⟩

/-- The statement `wire_to_ind[wirenum].push_back(ipath)` on a `std::map` whose
missing keys read as empty vectors. -/
def pushInd (wire_to_ind : ℤ → List ℤ) (wirenum : ℤ) (ipath : ℕ) : ℤ → List ℤ :=
  fun w => if w = wirenum then wire_to_ind w ++ [(ipath : ℤ)] else wire_to_ind w

/-- The loop `for ipath < npaths`, threading `wire_to_ind` and `m_ir`. -/
def pathLoop (env : Collaborators) (pitch : ℚ) (rawresp_bins : Binning)
    (rawresp_size : ℕ) (tick : ℚ) (ntbins : ℕ) (gain : ℚ) (elec : List Cplx) :
    List PathResponse → ℕ → (ℤ → List ℤ) → List ImpactResponse →
    Except Failure ((ℤ → List ℤ) × List ImpactResponse)
  | [], _, wire_to_ind, m_ir => Except.ok (wire_to_ind, m_ir)
  | path :: rest, ipath, wire_to_ind, m_ir =>
    let wirenum := ⌈path.pitchpos / pitch⌉
    let wire_to_ind := pushInd wire_to_ind wirenum ipath
    match makeImpactResponse env rawresp_bins rawresp_size tick ntbins gain elec ipath path with
    | Except.error e => Except.error e
    | Except.ok ir =>
      pathLoop env pitch rawresp_bins rawresp_size tick ntbins gain elec rest (ipath + 1)
        wire_to_ind (m_ir ++ [ir])

/-- One row of the symmetry loop: the direct group followed by the other group
reversed without its first element (`other.rbegin()+1`); an empty `other`
makes that iterator invalid. -/
def symRow (wire_to_ind : ℤ → List ℤ) (irelwire : ℤ) : Except Failure (List ℤ) :=
  let direct := wire_to_ind irelwire
  let other := wire_to_ind (-irelwire)
  match other.reverse with
  | [] => Except.error Failure.undefined
  | _ :: others => Except.ok (direct ++ others)

/-- The loop `for irelwire = -n_wires_half .. n_wires_half` run over the listed
offsets, appending one row per offset. -/
def symLoop (wire_to_ind : ℤ → List ℤ) : List ℤ → List (List ℤ) → Except Failure (List (List ℤ))
  | [], m_bywire => Except.ok m_bywire
  | irelwire :: rest, m_bywire =>
    match symRow wire_to_ind irelwire with
    | Except.error e => Except.error e
    | Except.ok indices => symLoop wire_to_ind rest (m_bywire ++ [indices])

/-- The offsets `-n_wires_half, ..., n_wires_half` in loop order. -/
def relWires (n_wires_half : ℕ) : List ℤ :=
  (List.range (2 * n_wires_half + 1)).map (fun (i : ℕ) => (i : ℤ) - (n_wires_half : ℤ))

/-- The constructor `PlaneImpactResponse::PlaneImpactResponse`. -/
def construct (env : Collaborators) (fr : FieldResponse) (plane_number : ℤ)
    (tbins : Binning) (gain shaping : ℚ) : Except Failure PlaneImpactResponse := do
  let pr ← vecAt fr.planes plane_number
  let elec : List Cplx := if gain > 0 then env.dft (env.coldElec gain shaping tbins) else []
  let npaths := pr.paths.length
  let n_per : ℕ := 6
  let n_wires := npaths / n_per
  let n_wires_half := n_wires / 2
  let p1 ← vecAt pr.paths 1
  let p0 ← vecAt pr.paths 0
  let m_impact := |p1.pitchpos - p0.pitchpos|
  let front ← vecAt pr.paths 0
  let back ← vecAt pr.paths ((npaths : ℤ) - 1)
  let m_half_extent := max |front.pitchpos| |back.pitchpos|
  let plast ← vecAt pr.paths ((n_per : ℤ) - 1)
  let m_pitch := 2 * |plast.pitchpos - p0.pitchpos|
  let rawresp_size := p0.current.length
  let rawresp_min := fr.tstart * env.us
  let rawresp_tick := fr.period * env.us
  let rawresp_max := rawresp_min + rawresp_size * rawresp_tick
  let rawresp_bins : Binning := ⟨rawresp_size, rawresp_min, rawresp_max⟩
  let ntbins := tbins.nbins
  let tick := tbins.binsize
  let (wire_to_ind, m_ir) ← pathLoop env pr.pitch rawresp_bins rawresp_size tick ntbins
    gain elec pr.paths 0 (fun _ => []) []
  let m_bywire ← symLoop wire_to_ind (relWires n_wires_half) []
  Except.ok ⟨m_ir, m_bywire, m_half_extent, m_pitch, m_impact⟩

/-! ## Lookup -/

/-- Modelled from the spec: `nwires()` (declared in the absent header), the
number of rows of `m_bywire`. -/
def PlaneImpactResponse.nwires (p : PlaneImpactResponse) : ℤ :=
  (p.m_bywire.length : ℤ)

/-- Modelled from the spec: `nimp_per_wire()` (declared in the absent header),
the length of row `0` of `m_bywire`; every constructed instance has a row `0`. -/
def PlaneImpactResponse.nimp_per_wire (p : PlaneImpactResponse) : ℤ :=
  match p.m_bywire with
  | [] => 0
  | region :: _ => (region.length : ℤ)

/-- The function `PlaneImpactResponse::closest_wire_impact`, with the
conversions `int(round(.))` taken over the unbounded integers;
`closest_wire_impact_int` below makes the range of the 32-bit `int` explicit. -/
def PlaneImpactResponse.closest_wire_impact (p : PlaneImpactResponse) (relpitch : ℚ) : ℤ × ℤ :=
  let center_wire := p.nwires / 2
  let relwire := cround (relpitch / p.m_pitch)
  let wire_index := center_wire + relwire
  let remainder_pitch := relpitch - (relwire : ℚ) * p.m_pitch
  let impact_index := cround (remainder_pitch / p.m_impact) + p.nimp_per_wire / 2
  (wire_index, impact_index)

/-- A value of the 32-bit type `int`: the result of a conversion or of an
`int` sum is defined only inside `[-2^31, 2^31 - 1]`. -/
def toInt (z : ℤ) : Except Failure ℤ :=
  if -2147483648 ≤ z ∧ z ≤ 2147483647 then Except.ok z else Except.error Failure.undefined

/-- The function `PlaneImpactResponse::closest_wire_impact` with the range of
`int` explicit: each `int(round(.))` and each `int` sum passes through `toInt`,
and a quotient by a zero spacing (infinite or not a number in `double`) has no
defined conversion. -/
def PlaneImpactResponse.closest_wire_impact_int (p : PlaneImpactResponse) (relpitch : ℚ) :
    Except Failure (ℤ × ℤ) :=
  if p.m_pitch = 0 ∨ p.m_impact = 0 then Except.error Failure.undefined
  else
    let center_wire := p.nwires / 2
    match toInt (cround (relpitch / p.m_pitch)) with
    | Except.error e => Except.error e
    | Except.ok relwire =>
      match toInt (center_wire + relwire) with
      | Except.error e => Except.error e
      | Except.ok wire_index =>
        let remainder_pitch := relpitch - (relwire : ℚ) * p.m_pitch
        match toInt (cround (remainder_pitch / p.m_impact)) with
        | Except.error e => Except.error e
        | Except.ok snapped =>
          match toInt (snapped + p.nimp_per_wire / 2) with
          | Except.error e => Except.error e
          | Except.ok impact_index => Except.ok (wire_index, impact_index)

/-- The function `PlaneImpactResponse::closest`. The comparisons of an `int`
with a container size follow a test for negativity, so they are the integer
comparisons written here; the last guard is `irind > m_ir.size()` as in the
source. -/
def PlaneImpactResponse.closest (p : PlaneImpactResponse) (relpitch : ℚ) :
    Except Failure (Option ImpactResponse) :=
  if relpitch < -p.m_half_extent ∨ relpitch > p.m_half_extent then Except.ok none
  else
    let wi := p.closest_wire_impact relpitch
    if wi.1 < 0 ∨ wi.1 ≥ (p.m_bywire.length : ℤ) then Except.ok none
    else
      match vecAt p.m_bywire wi.1 with
      | Except.error e => Except.error e
      | Except.ok region =>
        if wi.2 < 0 ∨ wi.2 ≥ (region.length : ℤ) then Except.ok none
        else
          match vecAt region wi.2 with
          | Except.error e => Except.error e
          | Except.ok irind =>
            if irind < 0 ∨ irind > (p.m_ir.length : ℤ) then Except.ok none
            else
              match vecAt p.m_ir irind with
              | Except.error e => Except.error e
              | Except.ok ir => Except.ok (some ir)

/-- The expression `std::make_pair(m_ir[region[a]], m_ir[region[b]])`. -/
def PlaneImpactResponse.pairAt (p : PlaneImpactResponse) (region : List ℤ) (a b : ℤ) :
    Except Failure (Option ImpactResponse × Option ImpactResponse) := do
  let ia ← vecAt region a
  let ra ← vecAt p.m_ir ia
  let ib ← vecAt region b
  let rb ← vecAt p.m_ir ib
  Except.ok (some ra, some rb)

/-- The function `PlaneImpactResponse::bounded`. The row `m_bywire[wi.first]`
is read without a range check. The test `wi.second == region.size()-1` is made
in unsigned arithmetic in C++; for an `int` index and a vector size it agrees
with the integer comparison used here (an empty row gives `-1` on both sides). -/
def PlaneImpactResponse.bounded (p : PlaneImpactResponse) (relpitch : ℚ) :
    Except Failure (Option ImpactResponse × Option ImpactResponse) :=
  if relpitch < -p.m_half_extent ∨ relpitch > p.m_half_extent then Except.ok (none, none)
  else
    let wi := p.closest_wire_impact relpitch
    match vecAt p.m_bywire wi.1 with
    | Except.error e => Except.error e
    | Except.ok region =>
      if wi.2 = 0 then p.pairAt region 0 1
      else if wi.2 = (region.length : ℤ) - 1 then p.pairAt region (wi.2 - 1) wi.2
      else
        let absimpact := p.m_half_extent + relpitch - (wi.1 : ℚ) * p.m_pitch
        let sign := absimpact - (wi.2 : ℚ) * p.m_impact
        if sign > 0 then p.pairAt region wi.2 (wi.2 + 1)
        else p.pairAt region (wi.2 - 1) wi.2

/-! ## Fanout (`src/inc/WireCellUtil/Fanout.h`) -/

/-- The state of a `Fanout` together with its connected source: the queues
`m_fan` (`std::map<int, std::deque<Data>>`, a missing key reads as `none`) and
the number of values the source has produced so far. The source is a single
connected slot whose successive calls return `src 0, src 1, ...`. -/
structure Fanout (Data : Type) where
  m_fan : ℤ → Option (List Data)
  pulled : ℕ

/-- The method `Fanout::address`: `m_fan[addr] = data_queue()`. -/
def Fanout.address {Data : Type} (s : Fanout Data) (addr : ℤ) : Fanout Data :=
  ⟨fun a => if a = addr then some [] else s.m_fan a, s.pulled⟩

/-- The method `Fanout::operator()`: take the queue of `addr` (created empty
when the key is absent); when it is empty pull one value from the source and
push it on every queue; then return and pop the front of the queue. -/
def Fanout.call {Data : Type} (src : ℕ → Data) (s : Fanout Data) (addr : ℤ) :
    Except Failure (Data × Fanout Data) :=
  let dq := (s.m_fan addr).getD []
  let fan1 : ℤ → Option (List Data) := fun a => if a = addr then some dq else s.m_fan a
  let s2 : Fanout Data :=
    if dq.length = 0 then
      let dat := src s.pulled
      ⟨fun a => (fan1 a).map (fun q => q ++ [dat]), s.pulled + 1⟩
    else ⟨fan1, s.pulled⟩
  match s2.m_fan addr with
  | some (dat :: rest) =>
    Except.ok (dat, ⟨fun a => if a = addr then some rest else s2.m_fan a, s2.pulled⟩)
  | _ => Except.error Failure.undefined

/-- The two calls a client can make on a `Fanout`. -/
inductive FanoutOp where
  | address (addr : ℤ)
  | call (addr : ℤ)
deriving DecidableEq, Repr

/-- Run a sequence of client calls; the result lists, in order, each read with
its address and the value it returned. -/
def Fanout.run {Data : Type} (src : ℕ → Data) :
    Fanout Data → List FanoutOp → Except Failure (List (ℤ × Data))
  | _, [] => Except.ok []
  | s, FanoutOp.address addr :: rest => Fanout.run src (s.address addr) rest
  | s, FanoutOp.call addr :: rest =>
    match s.call src addr with
    | Except.error e => Except.error e
    | Except.ok (dat, s2) =>
      match Fanout.run src s2 rest with
      | Except.error e => Except.error e
      | Except.ok outs => Except.ok ((addr, dat) :: outs)

/-- The values returned by the reads on address `a`, in order. -/
def readsOf {Data : Type} (a : ℤ) (outs : List (ℤ × Data)) : List Data :=
  (outs.filter (fun o => decide (o.1 = a))).map (fun o => o.2)

/-- The number of reads on address `a` in a sequence of client calls. -/
def countCalls (a : ℤ) (ops : List FanoutOp) : ℕ :=
  (ops.filter (fun o => decide (o = FanoutOp.call a))).length

/-- Address `a` is registered and its queue holds exactly the source values
number `f, f + 1, ..., pulled - 1` (0-based) that it has not yet returned. -/
def Fanout.Tracks {Data : Type} (src : ℕ → Data) (s : Fanout Data) (a : ℤ) (f : ℕ) : Prop :=
  f ≤ s.pulled ∧ s.m_fan a = some ((List.range (s.pulled - f)).map (fun i => src (f + i)))

/-- A freshly constructed `Fanout`: no queue, nothing pulled yet. -/
def Fanout.empty (Data : Type) : Fanout Data :=
  ⟨fun _ => none, 0⟩

/-! ## Vocabulary of the statements -/

/-- The wire bookkeeping of the path loop on its own: the `wire_to_ind` map
reached after pushing the indices `ipath, ipath + 1, ...` under the listed
wire numbers. -/
def collectInd : List ℤ → ℕ → (ℤ → List ℤ) → (ℤ → List ℤ)
  | [], _, wire_to_ind => wire_to_ind
  | wirenum :: rest, ipath, wire_to_ind =>
    collectInd rest (ipath + 1) (pushInd wire_to_ind wirenum ipath)

/-- Transverse position of path `k = 6 w + i` in a tabulation of `2 n + 1` wire
groups of nominal pitch `P`: `(w - n) P - P / 2 + i P / 10`. -/
def gridPos (n : ℕ) (P : ℚ) (k : ℕ) : ℚ :=
  (((k / 6 : ℕ) : ℚ) - (n : ℚ)) * P - P / 2 + ((k % 6 : ℕ) : ℚ) * P / 10

/-- A well-formed tabulation: `2 n + 1` wire groups of 6 paths, path `6 w + i`
at `(w - n) P - P / 2 + i P / 10`, for the plane's nominal pitch `P > 0`. -/
def WellFormed (n : ℕ) (P : ℚ) (pr : PlaneResponse) : Prop :=
  0 < P ∧ pr.pitch = P ∧
    pr.paths.map (fun p => p.pitchpos) = (List.range (6 * (2 * n + 1))).map (gridPos n P)

/-- A structurally well-formed tabulation: `2 n + 1` groups of 6 paths, the
paths of group `w` all having relative wire number `w - n`. -/
def Grouped (n : ℕ) (pr : PlaneResponse) : Prop :=
  pr.paths.map (fun p => ⌈p.pitchpos / pr.pitch⌉) =
    (List.range (6 * (2 * n + 1))).map (fun k => (((k / 6 : ℕ) : ℤ) - (n : ℤ)))

/-- The six path indices of wire group `c`. -/
def block (c : ℤ) : List ℤ :=
  [6 * c, 6 * c + 1, 6 * c + 2, 6 * c + 3, 6 * c + 4, 6 * c + 5]

/-- The `wire_to_ind` map once the first `m` groups have been pushed. -/
def groupsUpTo (m n : ℕ) : ℤ → List ℤ :=
  fun w => if 0 ≤ w + (n : ℤ) ∧ w + (n : ℤ) < (m : ℤ) then block (w + (n : ℤ)) else []

/-- Row `c` of `m_bywire` for a grouped tabulation of `2 n + 1` wires: group
`c` followed by group `2 n - c` reversed without its on-wire path. -/
def wfRow (n : ℕ) (c : ℕ) : List ℤ :=
  block (c : ℤ) ++
    [6 * (2 * (n : ℤ) - c) + 4, 6 * (2 * (n : ℤ) - c) + 3, 6 * (2 * (n : ℤ) - c) + 2,
      6 * (2 * (n : ℤ) - c) + 1, 6 * (2 * (n : ℤ) - c)]

/-- Row-frame transverse position of entry `j` of row `row`:
`(row - centre_row) * wire_spacing + (j - row_midpoint) * impact_spacing`. -/
def PlaneImpactResponse.rowPos (p : PlaneImpactResponse) (row j : ℤ) : ℚ :=
  ((row - p.nwires / 2 : ℤ) : ℚ) * p.m_pitch + ((j - p.nimp_per_wire / 2 : ℤ) : ℚ) * p.m_impact

/-- The response `m_ir[region[j]]` that position `j` of a row designates. -/
def PlaneImpactResponse.entry (p : PlaneImpactResponse) (region : List ℤ) (j : ℤ) :
    Except Failure ImpactResponse :=
  match vecAt region j with
  | Except.error e => Except.error e
  | Except.ok irind => vecAt p.m_ir irind

/-- The state a well-formed tabulation of `2 n + 1` wires of pitch `P` leads
to: the derived spacings, the folded rows and one response per path. -/
def WellFormedInstance (n : ℕ) (P : ℚ) (p : PlaneImpactResponse) : Prop :=
  0 < P ∧ p.m_impact = P / 10 ∧ p.m_pitch = P ∧ p.m_half_extent = ((n : ℚ) + 1 / 2) * P ∧
    p.m_bywire = (List.range (2 * n + 1)).map (wfRow n) ∧ p.m_ir.length = 6 * (2 * n + 1)

/-- Every index stored in a row of `m_bywire` designates an existing response. -/
def ValidIndices (p : PlaneImpactResponse) : Prop :=
  ∀ region ∈ p.m_bywire, ∀ v ∈ region, 0 ≤ v ∧ v < (p.m_ir.length : ℤ)

/-- The maximum of `|transverse_position|` over all listed paths. -/
def maxAbsPos (paths : List PathResponse) : ℚ :=
  paths.foldr (fun p acc => max |p.pitchpos| acc) 0

/-- Absolute time of native sample `r`: the centre of native bin `r`,
`tstart + (r + 1/2) * period` in internal units. -/
def nativeTime (env : Collaborators) (fr : FieldResponse) (r : ℕ) : ℚ :=
  fr.tstart * env.us + ((r : ℚ) + 1 / 2) * (fr.period * env.us)

/-- Truncated target bin index of native sample `r`: `trunc (time / tick)`. -/
def binIndex (env : Collaborators) (fr : FieldResponse) (tbins : Binning) (r : ℕ) : ℤ :=
  ctrunc (nativeTime env fr r / tbins.binsize)

/-- The resampled waveform `wave` the path loop computes for one path, for a
native trace length `rawresp_size`. -/
def resample (env : Collaborators) (fr : FieldResponse) (tbins : Binning)
    (rawresp_size : ℕ) (path : PathResponse) : Except Failure (List ℚ) :=
  resampleLoop
    ⟨rawresp_size, fr.tstart * env.us,
      fr.tstart * env.us + (rawresp_size : ℚ) * (fr.period * env.us)⟩
    tbins.binsize tbins.nbins path.current (List.range rawresp_size)
    (List.replicate tbins.nbins 0)

/-- The group `G(w)` of the statements: the list, in tabulation order, of the
path indices `i` with `ceil (transverse_position_i / nominal_wire_pitch) = w`. -/
def wireGroup (pr : PlaneResponse) (w : ℤ) : List ℤ :=
  ((pr.paths.enumFrom 0).filter (fun ip => decide (⌈ip.2.pitchpos / pr.pitch⌉ = w))).map
    (fun ip => (ip.1 : ℤ))

/-- A transform stand-in for evaluation: each real sample with zero imaginary part. -/
def sampleEnv : Collaborators :=
  ⟨1000, fun w => w.map (fun x => ⟨x, 0⟩), fun _ _ tb => List.replicate tb.nbins 1⟩

/-- One wire (n = 0) of nominal pitch 10: six paths at -5, -4, ..., 0. -/
def oneWirePlane : PlaneResponse :=
  ⟨[⟨[1, 2], -5⟩, ⟨[3, 4], -4⟩, ⟨[5, 6], -3⟩, ⟨[7, 8], -2⟩, ⟨[9, 10], -1⟩, ⟨[11, 12], 0⟩], 10⟩

/-- A field response holding `oneWirePlane`, two native samples of period 1/2 us. -/
def oneWireField : FieldResponse := ⟨[oneWirePlane], 0, 1 / 2⟩

/-- A target binning of two bins over [0, 1000). -/
def twoBins : Binning := ⟨2, 0, 1000⟩

/-- The instance the constructor builds from `oneWireField` and `twoBins`
without electronics response. -/
def oneWireInstance : PlaneImpactResponse :=
  ⟨[⟨0, [⟨1, 0⟩, ⟨2, 0⟩]⟩, ⟨1, [⟨3, 0⟩, ⟨4, 0⟩]⟩, ⟨2, [⟨5, 0⟩, ⟨6, 0⟩]⟩,
    ⟨3, [⟨7, 0⟩, ⟨8, 0⟩]⟩, ⟨4, [⟨9, 0⟩, ⟨10, 0⟩]⟩, ⟨5, [⟨11, 0⟩, ⟨12, 0⟩]⟩],
    [[0, 1, 2, 3, 4, 5, 4, 3, 2, 1, 0]], 5, 10, 1⟩

/-- Three wires (n = 1) of nominal pitch 10: eighteen paths at -15, -14, ..., 10.
The on-wire paths at -10 and 10 carry the same trace, and so do the paths at
-5 and 5. -/
def threeWirePlane : PlaneResponse :=
  ⟨[⟨[1, 2], -15⟩, ⟨[3, 4], -14⟩, ⟨[5, 6], -13⟩, ⟨[7, 8], -12⟩, ⟨[9, 10], -11⟩, ⟨[11, 12], -10⟩,
    ⟨[13, 14], -5⟩, ⟨[15, 16], -4⟩, ⟨[17, 18], -3⟩, ⟨[19, 20], -2⟩, ⟨[21, 22], -1⟩, ⟨[23, 24], 0⟩,
    ⟨[13, 14], 5⟩, ⟨[25, 26], 6⟩, ⟨[27, 28], 7⟩, ⟨[29, 30], 8⟩, ⟨[31, 32], 9⟩, ⟨[11, 12], 10⟩], 10⟩

/-- A field response holding `threeWirePlane`. -/
def threeWireField : FieldResponse := ⟨[threeWirePlane], 0, 1 / 2⟩

/-- The instance the constructor builds from `threeWireField` and `twoBins`
without electronics response. -/
def threeWireInstance : PlaneImpactResponse :=
  ⟨[⟨0, [⟨1, 0⟩, ⟨2, 0⟩]⟩, ⟨1, [⟨3, 0⟩, ⟨4, 0⟩]⟩, ⟨2, [⟨5, 0⟩, ⟨6, 0⟩]⟩,
    ⟨3, [⟨7, 0⟩, ⟨8, 0⟩]⟩, ⟨4, [⟨9, 0⟩, ⟨10, 0⟩]⟩, ⟨5, [⟨11, 0⟩, ⟨12, 0⟩]⟩,
    ⟨6, [⟨13, 0⟩, ⟨14, 0⟩]⟩, ⟨7, [⟨15, 0⟩, ⟨16, 0⟩]⟩, ⟨8, [⟨17, 0⟩, ⟨18, 0⟩]⟩,
    ⟨9, [⟨19, 0⟩, ⟨20, 0⟩]⟩, ⟨10, [⟨21, 0⟩, ⟨22, 0⟩]⟩, ⟨11, [⟨23, 0⟩, ⟨24, 0⟩]⟩,
    ⟨12, [⟨13, 0⟩, ⟨14, 0⟩]⟩, ⟨13, [⟨25, 0⟩, ⟨26, 0⟩]⟩, ⟨14, [⟨27, 0⟩, ⟨28, 0⟩]⟩,
    ⟨15, [⟨29, 0⟩, ⟨30, 0⟩]⟩, ⟨16, [⟨31, 0⟩, ⟨32, 0⟩]⟩, ⟨17, [⟨11, 0⟩, ⟨12, 0⟩]⟩],
    [[0, 1, 2, 3, 4, 5, 16, 15, 14, 13, 12], [6, 7, 8, 9, 10, 11, 10, 9, 8, 7, 6],
      [12, 13, 14, 15, 16, 17, 4, 3, 2, 1, 0]], 15, 10, 1⟩

/-- Six paths of one wire listed out of order: the extreme position -5 is
neither first nor last. -/
def shuffledPlane : PlaneResponse :=
  ⟨[⟨[1, 2], -1⟩, ⟨[3, 4], -5⟩, ⟨[5, 6], -4⟩, ⟨[7, 8], -3⟩, ⟨[9, 10], -2⟩, ⟨[11, 12], 0⟩], 10⟩

/-- A field response holding `shuffledPlane`. -/
def shuffledField : FieldResponse := ⟨[shuffledPlane], 0, 1 / 2⟩

/-- The instance the constructor builds from `shuffledField` and `twoBins`. -/
def shuffledInstance : PlaneImpactResponse :=
  ⟨[⟨0, [⟨1, 0⟩, ⟨2, 0⟩]⟩, ⟨1, [⟨3, 0⟩, ⟨4, 0⟩]⟩, ⟨2, [⟨5, 0⟩, ⟨6, 0⟩]⟩,
    ⟨3, [⟨7, 0⟩, ⟨8, 0⟩]⟩, ⟨4, [⟨9, 0⟩, ⟨10, 0⟩]⟩, ⟨5, [⟨11, 0⟩, ⟨12, 0⟩]⟩],
    [[0, 1, 2, 3, 4, 5, 4, 3, 2, 1, 0]], 1, 2, 4⟩

/-- The one-wire field response with its native window moved 400 ns early:
the two native samples are centred at -150 ns and 350 ns. -/
def earlyField : FieldResponse := ⟨[oneWirePlane], -2 / 5, 1 / 2⟩

/-- The instance the constructor builds from `earlyField` and `twoBins`: both
native samples land in target bin 0. -/
def earlyInstance : PlaneImpactResponse :=
  ⟨[⟨0, [⟨3, 0⟩, ⟨0, 0⟩]⟩, ⟨1, [⟨7, 0⟩, ⟨0, 0⟩]⟩, ⟨2, [⟨11, 0⟩, ⟨0, 0⟩]⟩,
    ⟨3, [⟨15, 0⟩, ⟨0, 0⟩]⟩, ⟨4, [⟨19, 0⟩, ⟨0, 0⟩]⟩, ⟨5, [⟨23, 0⟩, ⟨0, 0⟩]⟩],
    [[0, 1, 2, 3, 4, 5, 4, 3, 2, 1, 0]], 5, 10, 1⟩

/-- A target binning of two bins over the shifted window [500, 1500). -/
def shiftedBins : Binning := ⟨2, 500, 1500⟩

/-- Eighteen paths of pitch 10 laid out on the far side of each wire, at
-10, ..., -5, 0, ..., 5, 10, ..., 15 (not the layout the constructor assumes).
Paths at mirrored positions carry the same trace: -10 and 10, -5 and 5. -/
def offsetPlane : PlaneResponse :=
  ⟨[⟨[1, 2], -10⟩, ⟨[3, 4], -9⟩, ⟨[5, 6], -8⟩, ⟨[7, 8], -7⟩, ⟨[9, 10], -6⟩, ⟨[11, 12], -5⟩,
    ⟨[13, 14], 0⟩, ⟨[15, 16], 1⟩, ⟨[17, 18], 2⟩, ⟨[19, 20], 3⟩, ⟨[21, 22], 4⟩, ⟨[11, 12], 5⟩,
    ⟨[1, 2], 10⟩, ⟨[25, 26], 11⟩, ⟨[27, 28], 12⟩, ⟨[29, 30], 13⟩, ⟨[31, 32], 14⟩, ⟨[33, 34], 15⟩],
    10⟩

/-- A field response holding `offsetPlane`. -/
def offsetField : FieldResponse := ⟨[offsetPlane], 0, 1 / 2⟩

/-- The instance the constructor builds from `offsetField` and `twoBins`
without electronics response. -/
def offsetInstance : PlaneImpactResponse :=
  ⟨[⟨0, [⟨1, 0⟩, ⟨2, 0⟩]⟩, ⟨1, [⟨3, 0⟩, ⟨4, 0⟩]⟩, ⟨2, [⟨5, 0⟩, ⟨6, 0⟩]⟩,
    ⟨3, [⟨7, 0⟩, ⟨8, 0⟩]⟩, ⟨4, [⟨9, 0⟩, ⟨10, 0⟩]⟩, ⟨5, [⟨11, 0⟩, ⟨12, 0⟩]⟩,
    ⟨6, [⟨13, 0⟩, ⟨14, 0⟩]⟩, ⟨7, [⟨15, 0⟩, ⟨16, 0⟩]⟩, ⟨8, [⟨17, 0⟩, ⟨18, 0⟩]⟩,
    ⟨9, [⟨19, 0⟩, ⟨20, 0⟩]⟩, ⟨10, [⟨21, 0⟩, ⟨22, 0⟩]⟩, ⟨11, [⟨11, 0⟩, ⟨12, 0⟩]⟩,
    ⟨12, [⟨1, 0⟩, ⟨2, 0⟩]⟩, ⟨13, [⟨25, 0⟩, ⟨26, 0⟩]⟩, ⟨14, [⟨27, 0⟩, ⟨28, 0⟩]⟩,
    ⟨15, [⟨29, 0⟩, ⟨30, 0⟩]⟩, ⟨16, [⟨31, 0⟩, ⟨32, 0⟩]⟩, ⟨17, [⟨33, 0⟩, ⟨34, 0⟩]⟩],
    [[0, 11, 10, 9, 8, 7], [1, 2, 3, 4, 5, 6, 5, 4, 3, 2, 1], [7, 8, 9, 10, 11, 12]],
    15, 10, 1⟩

/-- A source producing 100, 101, 102, ... -/
def countingSource : ℕ → ℕ := fun k => 100 + k

end WireCell

/-! ## Theorems -/

namespace WireCell


theorem cround_neg (x : ℚ) : cround (-x) = -cround x := by
  unfold cround
  rcases lt_trichotomy x 0 with h | h | h
  · have h1 : (0:ℚ) ≤ -x := by linarith
    have h2 : ¬ (0:ℚ) ≤ x := by linarith
    simp [h1, h2]
  · subst h; norm_num
  · have h1 : ¬ (0:ℚ) ≤ -x := by linarith
    have h2 : (0:ℚ) ≤ x := by linarith
    simp [h1, h2]

theorem cround_sub_le (x : ℚ) : (cround x : ℚ) - 1 / 2 ≤ x := by
  unfold cround
  split_ifs with h
  · have := Int.floor_le (x + 1 / 2)
    linarith
  · have := Int.lt_floor_add_one (-x + 1 / 2)
    push_cast
    linarith

theorem le_cround_add (x : ℚ) : x ≤ (cround x : ℚ) + 1 / 2 := by
  have := cround_sub_le (-x)
  rw [cround_neg] at this
  push_cast at this
  linarith

theorem cround_le_of_lt (x : ℚ) (m : ℤ) (h : x < (m : ℚ) + 1 / 2) : cround x ≤ m := by
  have h1 := cround_sub_le x
  have h2 : (cround x : ℚ) < (m : ℚ) + 1 := by linarith
  have h3 : cround x < m + 1 := by exact_mod_cast h2
  omega

theorem le_cround_of_lt (x : ℚ) (m : ℤ) (h : (m : ℚ) - 1 / 2 < x) : m ≤ cround x := by
  have h1 := le_cround_add x
  have h2 : (m : ℚ) < (cround x : ℚ) + 1 := by linarith
  have h3 : m < cround x + 1 := by exact_mod_cast h2
  omega

theorem cround_zero : cround 0 = 0 := by
  unfold cround; norm_num

theorem vecAt_ok_iff {α : Type} (xs : List α) (i : ℤ) (a : α) :
    vecAt xs i = Except.ok a ↔ 0 ≤ i ∧ xs[i.toNat]? = some a := by
  unfold vecAt
  split_ifs with h
  · cases hx : xs[i.toNat]? <;> simp [h]
  · simp [h]

theorem vecAt_natCast {α : Type} (xs : List α) (k : ℕ) (a : α) (h : xs[k]? = some a) :
    vecAt xs (k : ℤ) = Except.ok a := by
  rw [vecAt_ok_iff]; simpa using h

theorem vecAt_lt {α : Type} (xs : List α) (i : ℤ) (a : α) (h : vecAt xs i = Except.ok a) :
    0 ≤ i ∧ i < (xs.length : ℤ) := by
  rw [vecAt_ok_iff] at h
  obtain ⟨h0, h1⟩ := h
  have := (List.getElem?_eq_some_iff.mp h1).1
  omega

theorem vecAt_of_lt {α : Type} (xs : List α) (i : ℤ) (h0 : 0 ≤ i) (h1 : i < (xs.length : ℤ)) :
    ∃ a, vecAt xs i = Except.ok a := by
  have h2 : i.toNat < xs.length := by omega
  exact ⟨xs[i.toNat], (vecAt_ok_iff xs i _).mpr ⟨h0, List.getElem?_eq_getElem h2⟩⟩

theorem collectInd_append (l1 l2 : List ℤ) (i : ℕ) (m : ℤ → List ℤ) :
    collectInd (l1 ++ l2) i m = collectInd l2 (i + l1.length) (collectInd l1 i m) := by
  induction l1 generalizing i m with
  | nil => simp [collectInd]
  | cons a l ih =>
    have h := ih (i + 1) (pushInd m a i)
    show collectInd (l ++ l2) (i + 1) (pushInd m a i) = _
    rw [h, show i + 1 + l.length = i + (l.length + 1) by omega]
    rfl

theorem collectInd_grouped (n m : ℕ) :
    collectInd ((List.range (6 * m)).map (fun k => (((k / 6 : ℕ) : ℤ) - (n : ℤ)))) 0 (fun _ => [])
      = groupsUpTo m n := by
  induction m with
  | zero =>
    funext w
    simp [collectInd, groupsUpTo]
  | succ m ih =>
    have hr : List.range (6 * (m + 1)) = List.range (6 * m) ++ (List.range 6).map (fun j => 6 * m + j) := by
      rw [show 6 * (m + 1) = 6 * m + 6 by ring, List.range_add]
    rw [hr, List.map_append, collectInd_append, ih]
    funext w
    simp [List.range_succ, collectInd, pushInd, groupsUpTo, block,
      show (6 * m + 1) / 6 = m by omega, show (6 * m + 2) / 6 = m by omega,
      show (6 * m + 3) / 6 = m by omega, show (6 * m + 4) / 6 = m by omega,
      show (6 * m + 5) / 6 = m by omega]
    by_cases hw : w = (m : ℤ) - (n : ℤ)
    · subst hw
      simp
      omega
    · have h1 : ¬ (w + (n : ℤ) = (m : ℤ)) := by omega
      simp [hw]
      by_cases h2 : 0 ≤ w + (n : ℤ) ∧ w + (n : ℤ) < (m : ℤ)
      · have h3 : 0 ≤ w + (n : ℤ) ∧ w + (n : ℤ) < (m : ℤ) + 1 := by omega
        simp [h2, h3]
      · have h3 : ¬ (0 ≤ w + (n : ℤ) ∧ w + (n : ℤ) < (m : ℤ) + 1) := by omega
        simp [h2, h3]

theorem construct_inv (env : Collaborators) (fr : FieldResponse) (pn : ℤ) (tb : Binning)
    (g s : ℚ) (inst : PlaneImpactResponse)
    (h : construct env fr pn tb g s = Except.ok inst) :
    ∃ pr p0 p1 plast back wire_to_ind,
      vecAt fr.planes pn = Except.ok pr ∧
      vecAt pr.paths 0 = Except.ok p0 ∧
      vecAt pr.paths 1 = Except.ok p1 ∧
      vecAt pr.paths 5 = Except.ok plast ∧
      vecAt pr.paths ((pr.paths.length : ℤ) - 1) = Except.ok back ∧
      pathLoop env pr.pitch
        ⟨p0.current.length, fr.tstart * env.us,
          fr.tstart * env.us + (p0.current.length : ℚ) * (fr.period * env.us)⟩
        p0.current.length tb.binsize tb.nbins g
        (if g > 0 then env.dft (env.coldElec g s tb) else [])
        pr.paths 0 (fun _ => []) [] = Except.ok (wire_to_ind, inst.m_ir) ∧
      symLoop wire_to_ind (relWires (pr.paths.length / 6 / 2)) [] = Except.ok inst.m_bywire ∧
      inst.m_impact = |p1.pitchpos - p0.pitchpos| ∧
      inst.m_half_extent = max |p0.pitchpos| |back.pitchpos| ∧
      inst.m_pitch = 2 * |plast.pitchpos - p0.pitchpos| := by
  unfold construct at h
  simp only [bind, Except.bind] at h
  cases hpr : vecAt fr.planes pn with
  | error e => simp [hpr] at h
  | ok pr =>
    simp only [hpr] at h
    cases hp1 : vecAt pr.paths 1 with
    | error e => simp [hp1] at h
    | ok p1 =>
      simp only [hp1] at h
      cases hp0 : vecAt pr.paths 0 with
      | error e => simp [hp0] at h
      | ok p0 =>
        simp only [hp0] at h
        cases hb : vecAt pr.paths ((pr.paths.length : ℤ) - 1) with
        | error e => simp [hb] at h
        | ok back =>
          simp only [hb] at h
          cases hl : vecAt pr.paths 5 with
          | error e =>
            norm_num [hl] at h
            cases h
          | ok plast =>
            norm_num [hl] at h
            split at h
            · simp at h
            · rename_i v hv
              obtain ⟨w2i, ir⟩ := v
              simp only at h
              split at h
              · simp at h
              · rename_i rows hrows
                simp only [Except.ok.injEq] at h
                subst h
                exact ⟨pr, p0, p1, plast, back, w2i, rfl, hp0, hp1, hl, hb, hv, hrows, rfl, rfl, rfl⟩

theorem pathLoop_inv (env : Collaborators) (pitch : ℚ) (rb : Binning) (rs : ℕ) (tick : ℚ)
    (nt : ℕ) (g : ℚ) (elec : List Cplx) (paths : List PathResponse) (i : ℕ)
    (m : ℤ → List ℤ) (ir : List ImpactResponse) (m2 : ℤ → List ℤ) (ir2 : List ImpactResponse)
    (h : pathLoop env pitch rb rs tick nt g elec paths i m ir = Except.ok (m2, ir2)) :
    m2 = collectInd (paths.map (fun p => ⌈p.pitchpos / pitch⌉)) i m ∧
    ∃ made : List ImpactResponse, ir2 = ir ++ made ∧ made.length = paths.length ∧
      ∀ k p, paths[k]? = some p →
        ∃ a, made[k]? = some a ∧
          makeImpactResponse env rb rs tick nt g elec (i + k) p = Except.ok a := by
  induction paths generalizing i m ir with
  | nil =>
    simp only [pathLoop, Except.ok.injEq, Prod.mk.injEq] at h
    obtain ⟨h1, h2⟩ := h
    subst h1 h2
    exact ⟨rfl, [], by simp, rfl, by simp⟩
  | cons p rest ih =>
    simp only [pathLoop] at h
    split at h
    · simp at h
    · rename_i a ha
      obtain ⟨h1, made, h2, h3, h4⟩ := ih (i + 1) _ _ h
      refine ⟨by simpa [collectInd] using h1, a :: made, by simp [h2], by simp [h3], ?_⟩
      intro k q hk
      cases k with
      | zero =>
        simp only [List.getElem?_cons_zero, Option.some.injEq] at hk
        subst hk
        exact ⟨a, by simp, by simpa using ha⟩
      | succ k =>
        simp only [List.getElem?_cons_succ] at hk
        obtain ⟨b, hb1, hb2⟩ := h4 k q hk
        refine ⟨b, by simpa using hb1, ?_⟩
        rw [show i + (k + 1) = i + 1 + k by omega]
        exact hb2

theorem pathLoop_error_head (env : Collaborators) (pitch : ℚ) (rb : Binning) (rs : ℕ) (tick : ℚ)
    (nt : ℕ) (g : ℚ) (elec : List Cplx) (p : PathResponse) (rest : List PathResponse) (i : ℕ)
    (m : ℤ → List ℤ) (ir : List ImpactResponse) (e : Failure)
    (h : makeImpactResponse env rb rs tick nt g elec i p = Except.error e) :
    pathLoop env pitch rb rs tick nt g elec (p :: rest) i m ir = Except.error e := by
  simp only [pathLoop, h]

theorem symLoop_ok_of (w2i : ℤ → List ℤ) (f : ℤ → List ℤ) (ks : List ℤ) (acc : List (List ℤ))
    (h : ∀ k ∈ ks, symRow w2i k = Except.ok (f k)) :
    symLoop w2i ks acc = Except.ok (acc ++ ks.map f) := by
  induction ks generalizing acc with
  | nil => simp [symLoop]
  | cons k rest ih =>
    simp only [symLoop, h k (by simp)]
    rw [ih _ (fun q hq => h q (by simp [hq]))]
    simp

theorem symRow_groups (n c : ℕ) (hc : c < 2 * n + 1) :
    symRow (groupsUpTo (2 * n + 1) n) ((c : ℤ) - (n : ℤ)) = Except.ok (wfRow n c) := by
  have h1 : 0 ≤ (c : ℤ) - (n : ℤ) + (n : ℤ) ∧ (c : ℤ) - (n : ℤ) + (n : ℤ) < ((2 * n + 1 : ℕ) : ℤ) := by
    push_cast; omega
  have h2 : 0 ≤ -((c : ℤ) - (n : ℤ)) + (n : ℤ) ∧
      -((c : ℤ) - (n : ℤ)) + (n : ℤ) < ((2 * n + 1 : ℕ) : ℤ) := by
    push_cast; omega
  simp only [symRow, groupsUpTo, h1, h2, and_self, if_true, block, wfRow]
  simp only [List.reverse_cons, List.reverse_nil, List.nil_append, List.cons_append]
  have e1 : (c : ℤ) - (n : ℤ) + (n : ℤ) = (c : ℤ) := by ring
  have e2 : -((c : ℤ) - (n : ℤ)) + (n : ℤ) = 2 * (n : ℤ) - (c : ℤ) := by ring
  rw [e1, e2]

theorem grouped_length (n : ℕ) (pr : PlaneResponse) (h : Grouped n pr) :
    pr.paths.length = 6 * (2 * n + 1) := by
  have := congrArg List.length h
  simpa using this

theorem wellFormed_length (n : ℕ) (P : ℚ) (pr : PlaneResponse) (h : WellFormed n P pr) :
    pr.paths.length = 6 * (2 * n + 1) := by
  have := congrArg List.length h.2.2
  simpa using this

theorem construct_grouped_bywire (env : Collaborators) (fr : FieldResponse) (pn : ℤ)
    (tb : Binning) (g s : ℚ) (inst : PlaneImpactResponse) (pr : PlaneResponse) (n : ℕ)
    (hpr : vecAt fr.planes pn = Except.ok pr) (hg : Grouped n pr)
    (h : construct env fr pn tb g s = Except.ok inst) :
    inst.m_bywire = (List.range (2 * n + 1)).map (wfRow n) := by
  obtain ⟨pr2, p0, p1, plast, back, w2i, h1, -, -, -, -, h6, h7, -⟩ :=
    construct_inv env fr pn tb g s inst h
  rw [hpr] at h1
  cases h1
  have hlen := grouped_length n pr hg
  obtain ⟨hw, -⟩ := pathLoop_inv _ _ _ _ _ _ _ _ _ _ _ _ _ _ h6
  rw [hg, collectInd_grouped] at hw
  subst hw
  rw [hlen, show 6 * (2 * n + 1) / 6 / 2 = n by omega] at h7
  have h8 := symLoop_ok_of (groupsUpTo (2 * n + 1) n) (fun k => wfRow n (k + (n : ℤ)).toNat)
    (relWires n) [] (by
      intro k hk
      simp only [relWires, List.mem_map, List.mem_range] at hk
      obtain ⟨c, hc, rfl⟩ := hk
      simp only [sub_add_cancel, Int.toNat_ofNat]
      exact symRow_groups n c hc)
  rw [h8] at h7
  simp only [Except.ok.injEq, List.nil_append] at h7
  rw [← h7, relWires, List.map_map]
  apply List.map_congr_left
  intro c _
  simp

theorem wellFormed_pos (n : ℕ) (P : ℚ) (pr : PlaneResponse) (h : WellFormed n P pr)
    (k : ℕ) (p : PathResponse) (hk : pr.paths[k]? = some p) : p.pitchpos = gridPos n P k := by
  have h1 : (pr.paths.map (fun p => p.pitchpos))[k]? = some p.pitchpos := by
    simp [List.getElem?_map, hk]
  rw [h.2.2] at h1
  have hlt : k < 6 * (2 * n + 1) := by
    have := (List.getElem?_eq_some_iff.mp hk).1
    rw [wellFormed_length n P pr h] at this
    exact this
  simp [List.getElem?_map, List.getElem?_range hlt] at h1
  exact h1.symm

theorem ceil_gridPos (n : ℕ) (P : ℚ) (hP : 0 < P) (k : ℕ) :
    ⌈gridPos n P k / P⌉ = ((k / 6 : ℕ) : ℤ) - (n : ℤ) := by
  have hne : P ≠ 0 := ne_of_gt hP
  have e : gridPos n P k / P = (((k / 6 : ℕ) : ℚ) - (n : ℚ)) - 1 / 2 + ((k % 6 : ℕ) : ℚ) / 10 := by
    unfold gridPos
    field_simp
    ring
  have h6 : k % 6 < 6 := Nat.mod_lt _ (by norm_num)
  have h6q : ((k % 6 : ℕ) : ℚ) ≤ 5 := by
    have : k % 6 ≤ 5 := by omega
    exact_mod_cast this
  have h0q : (0 : ℚ) ≤ ((k % 6 : ℕ) : ℚ) := Nat.cast_nonneg _
  rw [e, Int.ceil_eq_iff]
  simp only [Int.cast_sub, Int.cast_natCast]
  constructor <;> linarith

theorem wellFormed_grouped (n : ℕ) (P : ℚ) (pr : PlaneResponse) (h : WellFormed n P pr) :
    Grouped n pr := by
  unfold Grouped
  have h1 : pr.paths.map (fun p => ⌈p.pitchpos / pr.pitch⌉)
      = (pr.paths.map (fun p => p.pitchpos)).map (fun x => ⌈x / pr.pitch⌉) := by
    rw [List.map_map]; rfl
  rw [h1, h.2.2, h.2.1, List.map_map]
  apply List.map_congr_left
  intro k _
  exact ceil_gridPos n P h.1 k

theorem construct_wellFormed_scalars (env : Collaborators) (fr : FieldResponse) (pn : ℤ)
    (tb : Binning) (g s : ℚ) (inst : PlaneImpactResponse) (pr : PlaneResponse) (n : ℕ) (P : ℚ)
    (hpr : vecAt fr.planes pn = Except.ok pr) (hw : WellFormed n P pr)
    (h : construct env fr pn tb g s = Except.ok inst) :
    inst.m_impact = P / 10 ∧ inst.m_pitch = P ∧
      inst.m_half_extent = ((n : ℚ) + 1 / 2) * P := by
  obtain ⟨pr2, p0, p1, plast, back, w2i, h1, h2, h3, h4, h5, -, -, h8, h9, h10⟩ :=
    construct_inv env fr pn tb g s inst h
  rw [hpr] at h1
  cases h1
  have hP := hw.1
  have hlen := wellFormed_length n P pr hw
  have e0 := wellFormed_pos n P pr hw 0 p0 (by simpa using ((vecAt_ok_iff _ _ _).mp h2).2)
  have e1 := wellFormed_pos n P pr hw 1 p1 (by simpa using ((vecAt_ok_iff _ _ _).mp h3).2)
  have e5 := wellFormed_pos n P pr hw 5 plast (by simpa using ((vecAt_ok_iff _ _ _).mp h4).2)
  have eb := wellFormed_pos n P pr hw (12 * n + 5) back (by
    have := ((vecAt_ok_iff _ _ _).mp h5).2
    rw [hlen] at this
    have e : (((6 * (2 * n + 1) : ℕ) : ℤ) - 1).toNat = 12 * n + 5 := by push_cast; omega
    rw [e] at this
    exact this)
  have d0 : gridPos n P 0 = -((n : ℚ) + 1 / 2) * P := by
    simp [gridPos]; ring
  have d1 : gridPos n P 1 = -((n : ℚ) + 1 / 2) * P + P / 10 := by
    simp [gridPos]; ring
  have d5 : gridPos n P 5 = -((n : ℚ) + 1 / 2) * P + P / 2 := by
    simp [gridPos]; ring
  have db : gridPos n P (12 * n + 5) = (n : ℚ) * P := by
    simp [gridPos, show (12 * n + 5) / 6 = 2 * n by omega, show (12 * n + 5) % 6 = 5 by omega]
    ring
  have hn : (0 : ℚ) ≤ (n : ℚ) := Nat.cast_nonneg _
  refine ⟨?_, ?_, ?_⟩
  · rw [h8, e0, e1, d0, d1]
    rw [show -((n : ℚ) + 1 / 2) * P + P / 10 - -((n : ℚ) + 1 / 2) * P = P / 10 by ring]
    exact abs_of_pos (by linarith)
  · rw [h10, e0, e5, d0, d5]
    rw [show -((n : ℚ) + 1 / 2) * P + P / 2 - -((n : ℚ) + 1 / 2) * P = P / 2 by ring]
    rw [abs_of_pos (by linarith)]
    ring
  · rw [h9, e0, eb, d0, db]
    have a1 : |-((n : ℚ) + 1 / 2) * P| = ((n : ℚ) + 1 / 2) * P := by
      rw [neg_mul, abs_neg]
      exact abs_of_nonneg (by positivity)
    have a2 : |(n : ℚ) * P| = (n : ℚ) * P := abs_of_nonneg (by positivity)
    rw [a1, a2]
    apply max_eq_left
    nlinarith

theorem makeImpactResponse_ok_iff (env : Collaborators) (rb : Binning) (rs : ℕ) (tick : ℚ)
    (nt : ℕ) (g : ℚ) (elec : List Cplx) (i : ℕ) (p : PathResponse) (a : ImpactResponse) :
    makeImpactResponse env rb rs tick nt g elec i p = Except.ok a ↔
      a.index = (i : ℤ) ∧ spectrumOf env rb rs tick nt g elec p = Except.ok a.spectrum := by
  unfold makeImpactResponse
  cases h : spectrumOf env rb rs tick nt g elec p with
  | error e => simp
  | ok spec =>
    obtain ⟨ai, asp⟩ := a
    simp only [Except.ok.injEq, ImpactResponse.mk.injEq]
    constructor
    · rintro ⟨h1, h2⟩; exact ⟨h1.symm, h2⟩
    · rintro ⟨h1, h2⟩; exact ⟨h1.symm, h2⟩

theorem makeImpactResponse_spectrum (env : Collaborators) (rb : Binning) (rs : ℕ) (tick : ℚ)
    (nt : ℕ) (g : ℚ) (elec : List Cplx) (i j : ℕ) (p q : PathResponse) (a b : ImpactResponse)
    (hc : p.current = q.current)
    (ha : makeImpactResponse env rb rs tick nt g elec i p = Except.ok a)
    (hb : makeImpactResponse env rb rs tick nt g elec j q = Except.ok b) :
    a.spectrum = b.spectrum := by
  rw [makeImpactResponse_ok_iff] at ha hb
  have h1 := ha.2
  have h2 := hb.2
  unfold spectrumOf at h1 h2
  rw [hc] at h1
  rw [h1] at h2
  exact Except.ok.inj h2

theorem construct_ir (env : Collaborators) (fr : FieldResponse) (pn : ℤ) (tb : Binning)
    (g s : ℚ) (inst : PlaneImpactResponse) (pr : PlaneResponse)
    (hpr : vecAt fr.planes pn = Except.ok pr)
    (h : construct env fr pn tb g s = Except.ok inst) :
    ∃ (rb : Binning) (rs : ℕ) (elec : List Cplx),
      inst.m_ir.length = pr.paths.length ∧
      ∀ k p, pr.paths[k]? = some p →
        ∃ a, inst.m_ir[k]? = some a ∧
          makeImpactResponse env rb rs tb.binsize tb.nbins g elec k p = Except.ok a := by
  obtain ⟨pr2, p0, p1, plast, back, w2i, h1, -, -, -, -, h6, -⟩ :=
    construct_inv env fr pn tb g s inst h
  rw [hpr] at h1
  cases h1
  obtain ⟨-, made, hm1, hm2, hm3⟩ := pathLoop_inv _ _ _ _ _ _ _ _ _ _ _ _ _ _ h6
  simp only [List.nil_append] at hm1
  refine ⟨⟨p0.current.length, fr.tstart * env.us,
      fr.tstart * env.us + (p0.current.length : ℚ) * (fr.period * env.us)⟩, p0.current.length,
    (if g > 0 then env.dft (env.coldElec g s tb) else []), by rw [hm1, hm2], ?_⟩
  intro k p hk
  obtain ⟨a, ha1, ha2⟩ := hm3 k p hk
  refine ⟨a, by rw [hm1]; exact ha1, ?_⟩
  simpa using ha2

theorem construct_wellFormed (env : Collaborators) (fr : FieldResponse) (pn : ℤ)
    (tb : Binning) (g s : ℚ) (inst : PlaneImpactResponse) (pr : PlaneResponse) (n : ℕ) (P : ℚ)
    (hpr : vecAt fr.planes pn = Except.ok pr) (hw : WellFormed n P pr)
    (h : construct env fr pn tb g s = Except.ok inst) : WellFormedInstance n P inst := by
  obtain ⟨h1, h2, h3⟩ := construct_wellFormed_scalars env fr pn tb g s inst pr n P hpr hw h
  obtain ⟨rb, rs, elec, h4, -⟩ := construct_ir env fr pn tb g s inst pr hpr h
  exact ⟨hw.1, h1, h2, h3,
    construct_grouped_bywire env fr pn tb g s inst pr n hpr (wellFormed_grouped n P pr hw) h,
    by rw [h4, wellFormed_length n P pr hw]⟩

theorem wf_nwires (n : ℕ) (P : ℚ) (p : PlaneImpactResponse) (hw : WellFormedInstance n P p) :
    p.nwires = 2 * (n : ℤ) + 1 := by
  obtain ⟨-, -, -, -, hb, -⟩ := hw
  simp [PlaneImpactResponse.nwires, hb]

theorem wfRow_length (n c : ℕ) : (wfRow n c).length = 11 := by
  simp [wfRow, block]

theorem wf_nimp (n : ℕ) (P : ℚ) (p : PlaneImpactResponse) (hw : WellFormedInstance n P p) :
    p.nimp_per_wire = 11 := by
  obtain ⟨-, -, -, -, hb, -⟩ := hw
  simp [PlaneImpactResponse.nimp_per_wire, hb, List.range_succ_eq_map, wfRow_length]

theorem wf_locate (n : ℕ) (P : ℚ) (p : PlaneImpactResponse) (hw : WellFormedInstance n P p)
    (x : ℚ) :
    p.closest_wire_impact x =
      ((n : ℤ) + cround (x / P), cround ((x - (cround (x / P) : ℚ) * P) / (P / 10)) + 5) := by
  have h1 := wf_nwires n P p hw
  have h2 := wf_nimp n P p hw
  obtain ⟨-, hi, hp, -, -, -⟩ := hw
  simp only [PlaneImpactResponse.closest_wire_impact, h1, h2, hi, hp]
  rw [show (2 * (n : ℤ) + 1) / 2 = (n : ℤ) by omega, show (11 : ℤ) / 2 = 5 by norm_num]

theorem wf_row (n : ℕ) (P : ℚ) (p : PlaneImpactResponse) (hw : WellFormedInstance n P p)
    (c : ℕ) (hc : c < 2 * n + 1) : vecAt p.m_bywire (c : ℤ) = Except.ok (wfRow n c) := by
  obtain ⟨-, -, -, -, hb, -⟩ := hw
  apply vecAt_natCast
  rw [hb]
  simp [List.getElem?_map, List.getElem?_range hc]

theorem vecAt_wfRow (n c : ℕ) (j : ℤ) (h0 : 0 ≤ j) (h1 : j ≤ 10) :
    vecAt (wfRow n c) j =
      Except.ok (if j ≤ 5 then 6 * (c : ℤ) + j else 6 * (2 * (n : ℤ) - c) + (10 - j)) := by
  have hj : j = 0 ∨ j = 1 ∨ j = 2 ∨ j = 3 ∨ j = 4 ∨ j = 5 ∨ j = 6 ∨ j = 7 ∨ j = 8 ∨ j = 9 ∨
      j = 10 := by omega
  rcases hj with h | h | h | h | h | h | h | h | h | h | h <;> subst h <;>
    simp [vecAt, wfRow, block]

theorem wf_entry (n : ℕ) (P : ℚ) (p : PlaneImpactResponse) (hw : WellFormedInstance n P p)
    (c : ℕ) (hc : c < 2 * n + 1) (j : ℤ) (h0 : 0 ≤ j) (h1 : j ≤ 10) :
    ∃ a, p.entry (wfRow n c) j = Except.ok a ∧
      vecAt p.m_ir (if j ≤ 5 then 6 * (c : ℤ) + j else 6 * (2 * (n : ℤ) - c) + (10 - j))
        = Except.ok a := by
  obtain ⟨-, -, -, -, -, hl⟩ := hw
  have hv := vecAt_wfRow n c j h0 h1
  obtain ⟨a, ha⟩ := vecAt_of_lt p.m_ir
    (if j ≤ 5 then 6 * (c : ℤ) + j else 6 * (2 * (n : ℤ) - c) + (10 - j))
    (by split_ifs <;> omega) (by rw [hl]; push_cast; split_ifs <;> omega)
  exact ⟨a, by simp only [PlaneImpactResponse.entry, hv, ha], ha⟩

theorem pairAt_of_entry (p : PlaneImpactResponse) (region : List ℤ) (a b : ℤ)
    (ra rb : ImpactResponse) (ha : p.entry region a = Except.ok ra)
    (hb : p.entry region b = Except.ok rb) :
    p.pairAt region a b = Except.ok (some ra, some rb) := by
  unfold PlaneImpactResponse.entry at ha hb
  unfold PlaneImpactResponse.pairAt
  cases h1 : vecAt region a with
  | error e => simp [h1] at ha
  | ok ia =>
    cases h2 : vecAt region b with
    | error e => simp [h2] at hb
    | ok ib =>
      simp only [h1, h2] at ha hb
      simp [bind, Except.bind, ha, hb]

/-- Arithmetic of the two-level snap: with `r = round (x / P)` and
`t = (x - r P) / (P / 10)`, the fine coordinate `t` lies in `[-5, 5]`. -/
theorem snap_fine_range (P x : ℚ) (hP : 0 < P) :
    -5 ≤ (x - (cround (x / P) : ℚ) * P) / (P / 10) ∧
      (x - (cround (x / P) : ℚ) * P) / (P / 10) ≤ 5 ∧
      x = (cround (x / P) : ℚ) * P + (x - (cround (x / P) : ℚ) * P) / (P / 10) * (P / 10) := by
  have hne : P ≠ 0 := ne_of_gt hP
  have h1 := cround_sub_le (x / P)
  have h2 := le_cround_add (x / P)
  have e : (x - (cround (x / P) : ℚ) * P) / (P / 10) = 10 * (x / P - (cround (x / P) : ℚ)) := by
    field_simp
    ring
  refine ⟨by rw [e]; linarith, by rw [e]; linarith, ?_⟩
  field_simp

theorem bracket_arith (P r t a b x : ℚ) (hP : 0 < P) (hx : x = r * P + t * (P / 10))
    (ha : a ≤ t) (hb : t ≤ b) :
    r * P + a * (P / 10) ≤ x ∧ x ≤ r * P + b * (P / 10) := by
  have hP10 : 0 ≤ P / 10 := by linarith
  have h1 := mul_le_mul_of_nonneg_right ha hP10
  have h2 := mul_le_mul_of_nonneg_right hb hP10
  constructor <;> linarith

theorem wf_bounded_bracket (n : ℕ) (P : ℚ) (p : PlaneImpactResponse)
    (hw : WellFormedInstance n P p) (x : ℚ)
    (hlo : -p.m_half_extent ≤ x) (hhi : x ≤ p.m_half_extent)
    (hr0 : 0 ≤ (p.closest_wire_impact x).1)
    (hr1 : (p.closest_wire_impact x).1 < (p.m_bywire.length : ℤ)) :
    ∃ region j a b,
      vecAt p.m_bywire (p.closest_wire_impact x).1 = Except.ok region ∧
      0 ≤ j ∧ j + 1 < (region.length : ℤ) ∧
      p.entry region j = Except.ok a ∧ p.entry region (j + 1) = Except.ok b ∧
      p.bounded x = Except.ok (some a, some b) ∧
      p.rowPos (p.closest_wire_impact x).1 j ≤ x ∧
      x ≤ p.rowPos (p.closest_wire_impact x).1 (j + 1) := by
  have hloc := wf_locate n P p hw x
  have hnw := wf_nwires n P p hw
  have hni := wf_nimp n P p hw
  have hw2 := hw
  obtain ⟨hP, hi, hp, hh, hb, hl⟩ := hw
  have hlen : (p.m_bywire.length : ℤ) = 2 * (n : ℤ) + 1 := by
    simpa [PlaneImpactResponse.nwires] using hnw
  obtain ⟨ht0, ht1, hx⟩ := snap_fine_range P x hP
  set r : ℤ := cround (x / P) with hr
  set t : ℚ := (x - (r : ℚ) * P) / (P / 10) with ht
  set jj : ℤ := cround t with hjj
  rw [hloc] at hr0 hr1 ⊢
  simp only at hr0 hr1 ⊢
  have hj0 : -5 ≤ jj := le_cround_of_lt t (-5) (by push_cast; linarith)
  have hj1 : jj ≤ 5 := cround_le_of_lt t 5 (by push_cast; linarith)
  have hs0 := cround_sub_le t
  have hs1 := le_cround_add t
  rw [← hjj] at hs0 hs1
  -- the located row
  obtain ⟨c, hc⟩ : ∃ c : ℕ, (c : ℤ) = (n : ℤ) + r := ⟨((n : ℤ) + r).toNat, by omega⟩
  have hclt : c < 2 * n + 1 := by omega
  have hrow := wf_row n P p hw2 c hclt
  rw [hc] at hrow
  have hrl : ((wfRow n c).length : ℤ) = 11 := by rw [wfRow_length]; rfl
  -- positions
  have hpos : ∀ j : ℤ, p.rowPos ((n : ℤ) + r) j = (r : ℚ) * P + ((j : ℚ) - 5) * (P / 10) := by
    intro j
    simp only [PlaneImpactResponse.rowPos, hnw, hni, hp, hi]
    rw [show (2 * (n : ℤ) + 1) / 2 = (n : ℤ) by omega, show (11 : ℤ) / 2 = 5 by norm_num]
    push_cast
    ring
  have hP10 : 0 < P / 10 := by linarith
  have hjq0 : (-5 : ℚ) ≤ (jj : ℚ) := by exact_mod_cast hj0
  have hjq1 : (jj : ℚ) ≤ 5 := by exact_mod_cast hj1
  -- evaluation of bounded
  have hdom : ¬ (x < -p.m_half_extent ∨ x > p.m_half_extent) := by
    rintro (h | h) <;> linarith
  have hbd : p.bounded x =
      if jj + 5 = 0 then p.pairAt (wfRow n c) 0 1
      else if jj + 5 = 10 then p.pairAt (wfRow n c) (jj + 5 - 1) (jj + 5)
      else if p.m_half_extent + x - (((n : ℤ) + r : ℤ) : ℚ) * p.m_pitch
          - ((jj + 5 : ℤ) : ℚ) * p.m_impact > 0
        then p.pairAt (wfRow n c) (jj + 5) (jj + 5 + 1)
        else p.pairAt (wfRow n c) (jj + 5 - 1) (jj + 5) := by
    unfold PlaneImpactResponse.bounded
    rw [if_neg hdom, hloc]
    simp only [hrow, hrl]
    norm_num
  have hsign : p.m_half_extent + x - (((n : ℤ) + r : ℤ) : ℚ) * p.m_pitch
      - ((jj + 5 : ℤ) : ℚ) * p.m_impact = (t - (jj : ℚ)) * (P / 10) := by
    rw [hh, hp, hi]
    push_cast
    nth_rewrite 1 [hx]
    ring
  refine ⟨wfRow n c, ?_⟩
  by_cases c0 : jj + 5 = 0
  · obtain ⟨a, ha, -⟩ := wf_entry n P p hw2 c hclt 0 (by norm_num) (by norm_num)
    obtain ⟨b, hb2, -⟩ := wf_entry n P p hw2 c hclt 1 (by norm_num) (by norm_num)
    refine ⟨0, a, b, hrow, le_refl _, by rw [hrl]; norm_num, ha, hb2, ?_, ?_, ?_⟩
    · rw [hbd, if_pos c0]
      exact pairAt_of_entry p _ 0 1 a b ha hb2
    · rw [hpos]
      exact (bracket_arith P r t _ _ x hP hx (by push_cast; linarith) (le_refl t)).1
    · rw [hpos]
      have : (jj : ℚ) = -5 := by
        have : jj = -5 := by omega
        exact_mod_cast this
      exact (bracket_arith P r t _ _ x hP hx (le_refl t) (by push_cast; linarith)).2
  · by_cases c1 : jj + 5 = 10
    · obtain ⟨a, ha, -⟩ := wf_entry n P p hw2 c hclt 9 (by norm_num) (by norm_num)
      obtain ⟨b, hb2, -⟩ := wf_entry n P p hw2 c hclt 10 (by norm_num) (by norm_num)
      have e5 : jj = 5 := by omega
      refine ⟨9, a, b, hrow, by norm_num, by rw [hrl]; norm_num, ha, hb2, ?_, ?_, ?_⟩
      · rw [hbd, if_neg c0, if_pos c1, e5]
        exact pairAt_of_entry p _ _ _ a b ha hb2
      · rw [hpos]
        have : (jj : ℚ) = 5 := by exact_mod_cast e5
        exact (bracket_arith P r t _ _ x hP hx (by push_cast; linarith) (le_refl t)).1
      · rw [hpos]
        exact (bracket_arith P r t _ _ x hP hx (le_refl t) (by push_cast; linarith)).2
    · by_cases c2 : t - (jj : ℚ) > 0
      · obtain ⟨a, ha, -⟩ := wf_entry n P p hw2 c hclt (jj + 5) (by omega) (by omega)
        obtain ⟨b, hb2, -⟩ := wf_entry n P p hw2 c hclt (jj + 5 + 1) (by omega) (by omega)
        refine ⟨jj + 5, a, b, hrow, by omega, by rw [hrl]; omega, ha, hb2, ?_, ?_, ?_⟩
        · rw [hbd, if_neg c0, if_neg c1, hsign, if_pos (by positivity)]
          exact pairAt_of_entry p _ _ _ a b ha hb2
        · rw [hpos]
          exact (bracket_arith P r t _ _ x hP hx (by push_cast; linarith) (le_refl t)).1
        · rw [hpos]
          exact (bracket_arith P r t _ _ x hP hx (le_refl t) (by push_cast; linarith)).2
      · obtain ⟨a, ha, -⟩ := wf_entry n P p hw2 c hclt (jj + 5 - 1) (by omega) (by omega)
        obtain ⟨b, hb2, -⟩ := wf_entry n P p hw2 c hclt (jj + 5) (by omega) (by omega)
        have hb3 : p.entry (wfRow n c) (jj + 5 - 1 + 1) = Except.ok b := by
          rw [show jj + 5 - 1 + 1 = jj + 5 by ring]; exact hb2
        have hneg : ¬ ((t - (jj : ℚ)) * (P / 10) > 0) := by
          intro h
          apply c2
          by_contra h2
          have : (t - (jj : ℚ)) * (P / 10) ≤ 0 :=
            mul_nonpos_of_nonpos_of_nonneg (by linarith) (le_of_lt hP10)
          linarith
        refine ⟨jj + 5 - 1, a, b, hrow, by omega, by rw [hrl]; omega, ha, hb3, ?_, ?_, ?_⟩
        · rw [hbd, if_neg c0, if_neg c1, hsign, if_neg hneg]
          exact pairAt_of_entry p _ _ _ a b ha hb2
        · rw [hpos]
          exact (bracket_arith P r t _ _ x hP hx (by push_cast; linarith) (le_refl t)).1
        · rw [hpos]
          have : t - (jj : ℚ) ≤ 0 := le_of_not_gt c2
          exact (bracket_arith P r t _ _ x hP hx (le_refl t) (by push_cast; linarith)).2

theorem closest_eq_some_iff (p : PlaneImpactResponse) (x : ℚ) (a : ImpactResponse) :
    p.closest x = Except.ok (some a) ↔
      ¬ (x < -p.m_half_extent ∨ x > p.m_half_extent) ∧
      ∃ region, vecAt p.m_bywire (p.closest_wire_impact x).1 = Except.ok region ∧
        p.entry region (p.closest_wire_impact x).2 = Except.ok a := by
  unfold PlaneImpactResponse.closest PlaneImpactResponse.entry
  by_cases hd : x < -p.m_half_extent ∨ x > p.m_half_extent
  · simp [hd]
  · rw [if_neg hd]
    simp only [hd, not_false_eq_true, true_and]
    cases hrow : vecAt p.m_bywire (p.closest_wire_impact x).1 with
    | error e =>
      have : (p.closest_wire_impact x).1 < 0 ∨
          (p.closest_wire_impact x).1 ≥ (p.m_bywire.length : ℤ) := by
        by_contra hc
        push_neg at hc
        obtain ⟨r, hr⟩ := vecAt_of_lt p.m_bywire _ hc.1 hc.2
        rw [hr] at hrow
        cases hrow
      simp [this]
    | ok region =>
      have h1 := vecAt_lt _ _ _ hrow
      have h2 : ¬ ((p.closest_wire_impact x).1 < 0 ∨
          (p.closest_wire_impact x).1 ≥ (p.m_bywire.length : ℤ)) := by
        rintro (h | h) <;> omega
      rw [if_neg h2]
      simp only [Except.ok.injEq, exists_eq_left']
      cases hent : vecAt region (p.closest_wire_impact x).2 with
      | error e =>
        have : (p.closest_wire_impact x).2 < 0 ∨
            (p.closest_wire_impact x).2 ≥ (region.length : ℤ) := by
          by_contra hc
          push_neg at hc
          obtain ⟨r, hr⟩ := vecAt_of_lt region _ hc.1 hc.2
          rw [hr] at hent
          cases hent
        simp [this]
      | ok irind =>
        have h3 := vecAt_lt _ _ _ hent
        have h4 : ¬ ((p.closest_wire_impact x).2 < 0 ∨
            (p.closest_wire_impact x).2 ≥ (region.length : ℤ)) := by
          rintro (h | h) <;> omega
        rw [if_neg h4]
        simp only
        cases hir : vecAt p.m_ir irind with
        | error e =>
          by_cases h5 : irind < 0 ∨ irind > (p.m_ir.length : ℤ)
          · simp [h5]
          · simp [h5]
        | ok b =>
          have h6 := vecAt_lt _ _ _ hir
          have h5 : ¬ (irind < 0 ∨ irind > (p.m_ir.length : ℤ)) := by
            rintro (h | h) <;> omega
          simp [h5]

theorem vecAt_mem {α : Type} (xs : List α) (i : ℤ) (a : α) (h : vecAt xs i = Except.ok a) :
    a ∈ xs := by
  rw [vecAt_ok_iff] at h
  obtain ⟨hlt, heq⟩ := List.getElem?_eq_some_iff.mp h.2
  rw [← heq]
  exact List.getElem_mem hlt

theorem collectInd_mem (l : List ℤ) (i : ℕ) (m : ℤ → List ℤ) (w v : ℤ)
    (h : v ∈ collectInd l i m w) : v ∈ m w ∨ ((i : ℤ) ≤ v ∧ v < (i : ℤ) + (l.length : ℤ)) := by
  induction l generalizing i m with
  | nil => left; simpa [collectInd] using h
  | cons a l ih =>
    simp only [collectInd] at h
    rcases ih (i + 1) _ h with h1 | h1
    · simp only [pushInd] at h1
      split_ifs at h1 with hw
      · rcases List.mem_append.mp h1 with h2 | h2
        · exact Or.inl h2
        · right
          simp only [List.mem_singleton] at h2
          subst h2
          simp only [List.length_cons]
          push_cast
          omega
      · exact Or.inl h1
    · right
      simp only [List.length_cons]
      push_cast at h1 ⊢
      omega

theorem symRow_mem (w2i : ℤ → List ℤ) (k : ℤ) (region : List ℤ)
    (h : symRow w2i k = Except.ok region) (v : ℤ) (hv : v ∈ region) :
    v ∈ w2i k ∨ v ∈ w2i (-k) := by
  unfold symRow at h
  simp only at h
  split at h
  · cases h
  · rename_i o others ho
    simp only [Except.ok.injEq] at h
    subst h
    rcases List.mem_append.mp hv with h1 | h1
    · exact Or.inl h1
    · right
      have : v ∈ (w2i (-k)).reverse := by rw [ho]; exact List.mem_cons_of_mem _ h1
      exact List.mem_reverse.mp this

theorem symLoop_mem (w2i : ℤ → List ℤ) (ks : List ℤ) (acc rows : List (List ℤ))
    (h : symLoop w2i ks acc = Except.ok rows) (region : List ℤ) (hr : region ∈ rows) :
    region ∈ acc ∨ ∃ k, symRow w2i k = Except.ok region := by
  induction ks generalizing acc with
  | nil =>
    simp only [symLoop, Except.ok.injEq] at h
    subst h
    exact Or.inl hr
  | cons k rest ih =>
    simp only [symLoop] at h
    split at h
    · cases h
    · rename_i indices hi
      rcases ih _ h with h1 | h1
      · rcases List.mem_append.mp h1 with h2 | h2
        · exact Or.inl h2
        · right
          simp only [List.mem_singleton] at h2
          subst h2
          exact ⟨k, hi⟩
      · exact Or.inr h1

theorem symLoop_length (w2i : ℤ → List ℤ) (ks : List ℤ) (acc rows : List (List ℤ))
    (h : symLoop w2i ks acc = Except.ok rows) : rows.length = acc.length + ks.length := by
  induction ks generalizing acc with
  | nil =>
    simp only [symLoop, Except.ok.injEq] at h
    subst h
    simp
  | cons k rest ih =>
    simp only [symLoop] at h
    split at h
    · cases h
    · rw [ih _ h]
      simp
      omega

theorem construct_validIndices (env : Collaborators) (fr : FieldResponse) (pn : ℤ)
    (tb : Binning) (g s : ℚ) (inst : PlaneImpactResponse)
    (h : construct env fr pn tb g s = Except.ok inst) : ValidIndices inst := by
  obtain ⟨pr, p0, p1, plast, back, w2i, h1, -, -, -, -, h6, h7, -⟩ :=
    construct_inv env fr pn tb g s inst h
  obtain ⟨hw, made, hm1, hm2, -⟩ := pathLoop_inv _ _ _ _ _ _ _ _ _ _ _ _ _ _ h6
  simp only [List.nil_append] at hm1
  intro region hreg v hv
  rcases symLoop_mem _ _ _ _ h7 region hreg with h8 | ⟨k, h8⟩
  · simp at h8
  · have hlen : inst.m_ir.length = pr.paths.length := by rw [hm1, hm2]
    have key : ∀ w, v ∈ w2i w → 0 ≤ v ∧ v < (inst.m_ir.length : ℤ) := by
      intro w hvw
      rw [hw] at hvw
      rcases collectInd_mem _ _ _ _ _ hvw with h9 | h9
      · simp at h9
      · simp only [List.length_map] at h9
        rw [hlen]
        push_cast at h9
        omega
    rcases symRow_mem _ _ _ h8 v hv with h9 | h9
    · exact key _ h9
    · exact key _ h9

theorem entry_of_valid (p : PlaneImpactResponse) (hv : ValidIndices p) (region : List ℤ)
    (hr : region ∈ p.m_bywire) (j : ℤ) (h0 : 0 ≤ j) (h1 : j < (region.length : ℤ)) :
    ∃ a, p.entry region j = Except.ok a := by
  obtain ⟨v, hvj⟩ := vecAt_of_lt region j h0 h1
  have hm := hv region hr v (vecAt_mem _ _ _ hvj)
  obtain ⟨a, ha⟩ := vecAt_of_lt p.m_ir v hm.1 hm.2
  exact ⟨a, by simp only [PlaneImpactResponse.entry, hvj, ha]⟩

theorem entry_lt (p : PlaneImpactResponse) (region : List ℤ) (j : ℤ) (a : ImpactResponse)
    (h : p.entry region j = Except.ok a) : 0 ≤ j ∧ j < (region.length : ℤ) := by
  unfold PlaneImpactResponse.entry at h
  cases hv : vecAt region j with
  | error e => simp [hv] at h
  | ok v => exact vecAt_lt _ _ _ hv

theorem construct_oneWire :
    construct sampleEnv oneWireField 0 twoBins 0 0 = Except.ok oneWireInstance := by
  decide!

theorem oneWire_plane : vecAt oneWireField.planes 0 = Except.ok oneWirePlane := by
  decide!

theorem oneWire_wellFormed : WellFormed 0 10 oneWirePlane := by
  refine ⟨by norm_num, rfl, ?_⟩
  decide!

/-- C1: for every instance and every relative pitch `x` with
`x < -half_extent` or `x > half_extent`, `closest x` returns null and
`bounded x` returns the pair `(null, null)`. -/
theorem closest_bounded_outside_domain (p : PlaneImpactResponse) (x : ℚ)
    (h : x < -p.m_half_extent ∨ x > p.m_half_extent) :
    p.closest x = Except.ok none ∧ p.bounded x = Except.ok (none, none) := by
  unfold PlaneImpactResponse.closest PlaneImpactResponse.bounded
  simp [h]

theorem closest_bounded_outside_domain_witness :
    ((6 : ℚ) < -oneWireInstance.m_half_extent ∨ (6 : ℚ) > oneWireInstance.m_half_extent) ∧
      oneWireInstance.closest 6 = Except.ok none ∧
      oneWireInstance.bounded 6 = Except.ok (none, none) :=
  ⟨by decide!, closest_bounded_outside_domain oneWireInstance 6 (by decide!)⟩

/-- C3: on an instance built from a well-formed tabulation, for every
in-domain `x` whose located row exists, `bounded x` returns the two entries of
that row at adjacent positions `j` and `j + 1` whose row-frame positions
bracket the query: `rowPos row j ≤ x ≤ rowPos row (j + 1)`. -/
theorem bounded_brackets_query (env : Collaborators) (fr : FieldResponse) (pn : ℤ)
    (tb : Binning) (g s : ℚ) (inst : PlaneImpactResponse) (pr : PlaneResponse) (n : ℕ) (P : ℚ)
    (x : ℚ)
    (hpr : vecAt fr.planes pn = Except.ok pr) (hw : WellFormed n P pr)
    (h : construct env fr pn tb g s = Except.ok inst)
    (hlo : -inst.m_half_extent ≤ x) (hhi : x ≤ inst.m_half_extent)
    (hr0 : 0 ≤ (inst.closest_wire_impact x).1)
    (hr1 : (inst.closest_wire_impact x).1 < (inst.m_bywire.length : ℤ)) :
    ∃ region j a b,
      vecAt inst.m_bywire (inst.closest_wire_impact x).1 = Except.ok region ∧
      0 ≤ j ∧ j + 1 < (region.length : ℤ) ∧
      inst.entry region j = Except.ok a ∧ inst.entry region (j + 1) = Except.ok b ∧
      inst.bounded x = Except.ok (some a, some b) ∧
      inst.rowPos (inst.closest_wire_impact x).1 j ≤ x ∧
      x ≤ inst.rowPos (inst.closest_wire_impact x).1 (j + 1) :=
  wf_bounded_bracket n P inst (construct_wellFormed env fr pn tb g s inst pr n P hpr hw h)
    x hlo hhi hr0 hr1

theorem bounded_brackets_query_witness :
    WellFormed 0 10 oneWirePlane ∧
    construct sampleEnv oneWireField 0 twoBins 0 0 = Except.ok oneWireInstance ∧
    ∃ region j a b,
      vecAt oneWireInstance.m_bywire (oneWireInstance.closest_wire_impact (7 / 4)).1
        = Except.ok region ∧
      0 ≤ j ∧ j + 1 < (region.length : ℤ) ∧
      oneWireInstance.entry region j = Except.ok a ∧
      oneWireInstance.entry region (j + 1) = Except.ok b ∧
      oneWireInstance.bounded (7 / 4) = Except.ok (some a, some b) ∧
      oneWireInstance.rowPos (oneWireInstance.closest_wire_impact (7 / 4)).1 j ≤ 7 / 4 ∧
      (7 / 4 : ℚ) ≤ oneWireInstance.rowPos (oneWireInstance.closest_wire_impact (7 / 4)).1 (j + 1) :=
  ⟨oneWire_wellFormed, construct_oneWire,
    bounded_brackets_query sampleEnv oneWireField 0 twoBins 0 0 oneWireInstance oneWirePlane 0 10
      (7 / 4) oneWire_plane oneWire_wellFormed construct_oneWire
      (by decide!) (by decide!) (by decide!) (by decide!)⟩

theorem wf_closest (n : ℕ) (P : ℚ) (p : PlaneImpactResponse)
    (hw : WellFormedInstance n P p) (x : ℚ)
    (hlo : -p.m_half_extent ≤ x) (hhi : x ≤ p.m_half_extent)
    (c : ℕ) (hc : (c : ℤ) = (n : ℤ) + cround (x / P)) (hclt : c < 2 * n + 1) :
    ∃ a, p.closest x = Except.ok (some a) ∧
      vecAt p.m_ir
        (if cround ((x - (cround (x / P) : ℚ) * P) / (P / 10)) + 5 ≤ 5
          then 6 * (c : ℤ) + (cround ((x - (cround (x / P) : ℚ) * P) / (P / 10)) + 5)
          else 6 * (2 * (n : ℤ) - c)
            + (10 - (cround ((x - (cround (x / P) : ℚ) * P) / (P / 10)) + 5)))
        = Except.ok a := by
  have hloc := wf_locate n P p hw x
  obtain ⟨ht0, ht1, -⟩ := snap_fine_range P x hw.1
  have hj0 : -5 ≤ cround ((x - (cround (x / P) : ℚ) * P) / (P / 10)) :=
    le_cround_of_lt _ (-5) (by push_cast; linarith)
  have hj1 : cround ((x - (cround (x / P) : ℚ) * P) / (P / 10)) ≤ 5 :=
    cround_le_of_lt _ 5 (by push_cast; linarith)
  obtain ⟨a, ha, ha2⟩ := wf_entry n P p hw c hclt
    (cround ((x - (cround (x / P) : ℚ) * P) / (P / 10)) + 5) (by omega) (by omega)
  refine ⟨a, ?_, ha2⟩
  rw [closest_eq_some_iff]
  refine ⟨by rintro (h | h) <;> linarith, wfRow n c, ?_, ?_⟩
  · rw [hloc]
    simp only
    rw [← hc]
    exact wf_row n P p hw c hclt
  · rw [hloc]
    exact ha

/-- C10: on an instance built from a well-formed tabulation, `closest 0`
returns the response of the exact centre impact: the response stored for path
`6 n + 5`, which is the path tabulated at transverse position `0`. -/
theorem closest_zero_is_centre (env : Collaborators) (fr : FieldResponse) (pn : ℤ)
    (tb : Binning) (g s : ℚ) (inst : PlaneImpactResponse) (pr : PlaneResponse) (n : ℕ) (P : ℚ)
    (hpr : vecAt fr.planes pn = Except.ok pr) (hw : WellFormed n P pr)
    (h : construct env fr pn tb g s = Except.ok inst) :
    ∃ a path, inst.closest 0 = Except.ok (some a) ∧
      inst.m_ir[6 * n + 5]? = some a ∧ a.index = 6 * (n : ℤ) + 5 ∧
      pr.paths[6 * n + 5]? = some path ∧ path.pitchpos = 0 := by
  have hwi := construct_wellFormed env fr pn tb g s inst pr n P hpr hw h
  have hP := hw.1
  have hhalf : inst.m_half_extent = ((n : ℚ) + 1 / 2) * P := hwi.2.2.2.1
  have hn : (0 : ℚ) ≤ (n : ℚ) := Nat.cast_nonneg _
  have hpos : 0 ≤ inst.m_half_extent := by rw [hhalf]; positivity
  obtain ⟨a, ha1, ha2⟩ := wf_closest n P inst hwi 0 (by linarith) hpos n
    (by simp [cround_zero]) (by omega)
  simp only [zero_div, cround_zero, Int.cast_zero, zero_mul, sub_zero, zero_add, le_refl,
    if_true] at ha2
  have ha3 : inst.m_ir[6 * n + 5]? = some a := by
    have := ((vecAt_ok_iff _ _ _).mp ha2).2
    rw [show (6 * (n : ℤ) + 5).toNat = 6 * n + 5 by omega] at this
    exact this
  have hlen := wellFormed_length n P pr hw
  have hlt : 6 * n + 5 < pr.paths.length := by omega
  have hpath : pr.paths[6 * n + 5]? = some pr.paths[6 * n + 5] := List.getElem?_eq_getElem hlt
  obtain ⟨rb, rs, elec, -, hir⟩ := construct_ir env fr pn tb g s inst pr hpr h
  obtain ⟨b, hb1, hb2⟩ := hir _ _ hpath
  rw [ha3] at hb1
  cases hb1
  refine ⟨a, pr.paths[6 * n + 5], ha1, ha3, ?_, hpath, ?_⟩
  · have := ((makeImpactResponse_ok_iff _ _ _ _ _ _ _ _ _ _).mp hb2).1
    rw [this]
    push_cast
    ring
  · rw [wellFormed_pos n P pr hw _ _ hpath]
    simp only [gridPos, show (6 * n + 5) / 6 = n by omega, show (6 * n + 5) % 6 = 5 by omega]
    push_cast
    ring

theorem closest_zero_is_centre_witness :
    WellFormed 0 10 oneWirePlane ∧
    construct sampleEnv oneWireField 0 twoBins 0 0 = Except.ok oneWireInstance ∧
    ∃ a path, oneWireInstance.closest 0 = Except.ok (some a) ∧
      oneWireInstance.m_ir[6 * 0 + 5]? = some a ∧ a.index = 6 * ((0 : ℕ) : ℤ) + 5 ∧
      oneWirePlane.paths[6 * 0 + 5]? = some path ∧ path.pitchpos = 0 :=
  ⟨oneWire_wellFormed, construct_oneWire,
    closest_zero_is_centre sampleEnv oneWireField 0 twoBins 0 0 oneWireInstance oneWirePlane 0 10
      oneWire_plane oneWire_wellFormed construct_oneWire⟩

theorem closest_none_of_row (p : PlaneImpactResponse) (x : ℚ)
    (h : (p.closest_wire_impact x).1 < 0 ∨
      (p.closest_wire_impact x).1 ≥ (p.m_bywire.length : ℤ)) :
    p.closest x = Except.ok none := by
  unfold PlaneImpactResponse.closest
  simp [h]

theorem closest_none_of_impact (p : PlaneImpactResponse) (x : ℚ) (region : List ℤ)
    (hrow : vecAt p.m_bywire (p.closest_wire_impact x).1 = Except.ok region)
    (h : (p.closest_wire_impact x).2 < 0 ∨
      (p.closest_wire_impact x).2 ≥ (region.length : ℤ)) :
    p.closest x = Except.ok none := by
  unfold PlaneImpactResponse.closest
  simp only [hrow]
  simp [h]

/-- C4: for every constructed instance and every `x`, `closest x` is null
exactly when `x` lies outside `[-half_extent, half_extent]`, or the located
wire row is outside `[0, number of rows)`, or the located impact index is
outside `[0, length of that row)`; in every other case `closest x` is the
response `m_ir[m_bywire[row][impact_index]]`. -/
theorem closest_null_iff (env : Collaborators) (fr : FieldResponse) (pn : ℤ)
    (tb : Binning) (g s : ℚ) (inst : PlaneImpactResponse) (x : ℚ)
    (h : construct env fr pn tb g s = Except.ok inst) :
    (inst.closest x = Except.ok none ↔
      ((x < -inst.m_half_extent ∨ x > inst.m_half_extent) ∨
        ((inst.closest_wire_impact x).1 < 0 ∨
          (inst.closest_wire_impact x).1 ≥ (inst.m_bywire.length : ℤ)) ∨
        ∃ region, vecAt inst.m_bywire (inst.closest_wire_impact x).1 = Except.ok region ∧
          ((inst.closest_wire_impact x).2 < 0 ∨
            (inst.closest_wire_impact x).2 ≥ (region.length : ℤ)))) ∧
    (inst.closest x ≠ Except.ok none →
      ∃ region a, vecAt inst.m_bywire (inst.closest_wire_impact x).1 = Except.ok region ∧
        inst.entry region (inst.closest_wire_impact x).2 = Except.ok a ∧
        inst.closest x = Except.ok (some a)) := by
  have hv := construct_validIndices env fr pn tb g s inst h
  have key : ¬ ((x < -inst.m_half_extent ∨ x > inst.m_half_extent) ∨
        ((inst.closest_wire_impact x).1 < 0 ∨
          (inst.closest_wire_impact x).1 ≥ (inst.m_bywire.length : ℤ)) ∨
        ∃ region, vecAt inst.m_bywire (inst.closest_wire_impact x).1 = Except.ok region ∧
          ((inst.closest_wire_impact x).2 < 0 ∨
            (inst.closest_wire_impact x).2 ≥ (region.length : ℤ))) →
      ∃ region a, vecAt inst.m_bywire (inst.closest_wire_impact x).1 = Except.ok region ∧
        inst.entry region (inst.closest_wire_impact x).2 = Except.ok a ∧
        inst.closest x = Except.ok (some a) := by
    intro hn
    push_neg at hn
    obtain ⟨hd, hrow, himp⟩ := hn
    obtain ⟨region, hreg⟩ := vecAt_of_lt inst.m_bywire _ hrow.1 hrow.2
    obtain ⟨hi0, hi1⟩ := himp region hreg
    obtain ⟨a, ha⟩ := entry_of_valid inst hv region (vecAt_mem _ _ _ hreg) _ hi0 hi1
    refine ⟨region, a, hreg, ha, ?_⟩
    rw [closest_eq_some_iff]
    exact ⟨by rintro (h1 | h1) <;> linarith, region, hreg, ha⟩
  have back : ((x < -inst.m_half_extent ∨ x > inst.m_half_extent) ∨
        ((inst.closest_wire_impact x).1 < 0 ∨
          (inst.closest_wire_impact x).1 ≥ (inst.m_bywire.length : ℤ)) ∨
        ∃ region, vecAt inst.m_bywire (inst.closest_wire_impact x).1 = Except.ok region ∧
          ((inst.closest_wire_impact x).2 < 0 ∨
            (inst.closest_wire_impact x).2 ≥ (region.length : ℤ))) →
      inst.closest x = Except.ok none := by
    rintro (h1 | h1 | ⟨region, h1, h2⟩)
    · unfold PlaneImpactResponse.closest; simp [h1]
    · exact closest_none_of_row inst x h1
    · exact closest_none_of_impact inst x region h1 h2
  constructor
  · constructor
    · intro hnone
      by_contra hn
      obtain ⟨region, a, -, -, ha⟩ := key hn
      rw [ha] at hnone
      cases hnone
    · exact back
  · intro hne
    apply key
    intro hc
    exact hne (back hc)

theorem closest_null_iff_witness :
    (oneWireInstance.closest (9 / 2) = Except.ok none ↔
      (((9 / 2 : ℚ) < -oneWireInstance.m_half_extent ∨
          (9 / 2 : ℚ) > oneWireInstance.m_half_extent) ∨
        ((oneWireInstance.closest_wire_impact (9 / 2)).1 < 0 ∨
          (oneWireInstance.closest_wire_impact (9 / 2)).1
            ≥ (oneWireInstance.m_bywire.length : ℤ)) ∨
        ∃ region,
          vecAt oneWireInstance.m_bywire (oneWireInstance.closest_wire_impact (9 / 2)).1
            = Except.ok region ∧
          ((oneWireInstance.closest_wire_impact (9 / 2)).2 < 0 ∨
            (oneWireInstance.closest_wire_impact (9 / 2)).2 ≥ (region.length : ℤ)))) ∧
    (oneWireInstance.closest (9 / 2) ≠ Except.ok none →
      ∃ region a,
        vecAt oneWireInstance.m_bywire (oneWireInstance.closest_wire_impact (9 / 2)).1
          = Except.ok region ∧
        oneWireInstance.entry region (oneWireInstance.closest_wire_impact (9 / 2)).2
          = Except.ok a ∧
        oneWireInstance.closest (9 / 2) = Except.ok (some a)) :=
  closest_null_iff sampleEnv oneWireField 0 twoBins 0 0 oneWireInstance (9 / 2) construct_oneWire

/-- C5: for every constructed instance and every `x` for which `closest x` is
non-null and whose located row has at least two entries, `closest x` equals
the first or the second component of `bounded x`. -/
theorem closest_among_bounded (env : Collaborators) (fr : FieldResponse) (pn : ℤ)
    (tb : Binning) (g s : ℚ) (inst : PlaneImpactResponse) (x : ℚ) (a : ImpactResponse)
    (region : List ℤ)
    (h : construct env fr pn tb g s = Except.ok inst)
    (hc : inst.closest x = Except.ok (some a))
    (hrow : vecAt inst.m_bywire (inst.closest_wire_impact x).1 = Except.ok region)
    (hlen : 2 ≤ region.length) :
    ∃ b c, inst.bounded x = Except.ok (b, c) ∧ (b = some a ∨ c = some a) := by
  have hv := construct_validIndices env fr pn tb g s inst h
  rw [closest_eq_some_iff] at hc
  obtain ⟨hd, region2, hr2, hent⟩ := hc
  rw [hrow] at hr2
  cases hr2
  have hmem := vecAt_mem _ _ _ hrow
  obtain ⟨hj0, hj1⟩ := entry_lt inst region _ a hent
  have hlenz : (2 : ℤ) ≤ (region.length : ℤ) := by exact_mod_cast hlen
  unfold PlaneImpactResponse.bounded
  rw [if_neg hd]
  simp only [hrow]
  by_cases c0 : (inst.closest_wire_impact x).2 = 0
  · rw [if_pos c0]
    rw [c0] at hent
    obtain ⟨b, hb⟩ := entry_of_valid inst hv region hmem 1 (by norm_num) (by omega)
    exact ⟨some a, some b, pairAt_of_entry inst region 0 1 a b hent hb, Or.inl rfl⟩
  · rw [if_neg c0]
    by_cases c1 : (inst.closest_wire_impact x).2 = (region.length : ℤ) - 1
    · rw [if_pos c1]
      obtain ⟨b, hb⟩ := entry_of_valid inst hv region hmem
        ((inst.closest_wire_impact x).2 - 1) (by omega) (by omega)
      exact ⟨some b, some a, pairAt_of_entry inst region _ _ b a hb hent, Or.inr rfl⟩
    · rw [if_neg c1]
      split_ifs with hs
      · obtain ⟨b, hb⟩ := entry_of_valid inst hv region hmem
          ((inst.closest_wire_impact x).2 + 1) (by omega) (by omega)
        exact ⟨some a, some b, pairAt_of_entry inst region _ _ a b hent hb, Or.inl rfl⟩
      · obtain ⟨b, hb⟩ := entry_of_valid inst hv region hmem
          ((inst.closest_wire_impact x).2 - 1) (by omega) (by omega)
        exact ⟨some b, some a, pairAt_of_entry inst region _ _ b a hb hent, Or.inr rfl⟩

theorem closest_among_bounded_witness :
    construct sampleEnv oneWireField 0 twoBins 0 0 = Except.ok oneWireInstance ∧
    oneWireInstance.closest (7 / 4) = Except.ok (some ⟨3, [⟨7, 0⟩, ⟨8, 0⟩]⟩) ∧
    ∃ b c, oneWireInstance.bounded (7 / 4) = Except.ok (b, c) ∧
      (b = some ⟨3, [⟨7, 0⟩, ⟨8, 0⟩]⟩ ∨ c = some ⟨3, [⟨7, 0⟩, ⟨8, 0⟩]⟩) :=
  ⟨construct_oneWire, by decide!,
    closest_among_bounded sampleEnv oneWireField 0 twoBins 0 0 oneWireInstance (7 / 4)
      ⟨3, [⟨7, 0⟩, ⟨8, 0⟩]⟩ [0, 1, 2, 3, 4, 5, 4, 3, 2, 1, 0] construct_oneWire
      (by decide!) (by decide!) (by decide!)⟩

theorem construct_threeWire :
    construct sampleEnv threeWireField 0 twoBins 0 0 = Except.ok threeWireInstance := by
  decide!

theorem threeWire_plane : vecAt threeWireField.planes 0 = Except.ok threeWirePlane := by
  decide!

theorem threeWire_wellFormed : WellFormed 1 10 threeWirePlane := by
  refine ⟨by norm_num, rfl, ?_⟩
  decide!

/-- C2 (evaluation at the failing input): on the instance built from the
well-formed one-wire tabulation, `half_extent = 5`; at the in-domain endpoints
`x = 5` and `x = -5` the located row is `1`, respectively `-1`, outside the
single row of `m_bywire`; `closest` reports null there while `bounded` reads
`m_bywire` out of range. -/
theorem bounded_at_domain_endpoint :
    WellFormed 0 10 oneWirePlane ∧
    construct sampleEnv oneWireField 0 twoBins 0 0 = Except.ok oneWireInstance ∧
    oneWireInstance.m_half_extent = 5 ∧ oneWireInstance.m_bywire.length = 1 ∧
    (oneWireInstance.closest_wire_impact 5).1 = 1 ∧
    (oneWireInstance.closest_wire_impact (-5)).1 = -1 ∧
    oneWireInstance.closest 5 = Except.ok none ∧
    oneWireInstance.bounded 5 = Except.error Failure.undefined ∧
    oneWireInstance.bounded (-5) = Except.error Failure.undefined :=
  ⟨oneWire_wellFormed, construct_oneWire, by decide!, by decide!, by decide!, by decide!,
    by decide!, by decide!, by decide!⟩

/-- C6 (counterexample): on a tabulation laid out on the far side of each wire,
paths at mirrored positions carry identical traces and construction completes,
yet `closest 10` and `closest (-10)` are the responses of paths 10 and 9, whose
spectra differ. -/
theorem mirror_spectra_counterexample :
    (∀ p ∈ offsetPlane.paths, ∀ q ∈ offsetPlane.paths,
      p.pitchpos = -q.pitchpos → p.current = q.current) ∧
    construct sampleEnv offsetField 0 twoBins 0 0 = Except.ok offsetInstance ∧
    offsetInstance.closest 10 = Except.ok (some ⟨10, [⟨21, 0⟩, ⟨22, 0⟩]⟩) ∧
    offsetInstance.closest (-10) = Except.ok (some ⟨9, [⟨19, 0⟩, ⟨20, 0⟩]⟩) ∧
    (⟨10, [⟨21, 0⟩, ⟨22, 0⟩]⟩ : ImpactResponse).spectrum
      ≠ (⟨9, [⟨19, 0⟩, ⟨20, 0⟩]⟩ : ImpactResponse).spectrum :=
  ⟨by decide!, by decide!, by decide!, by decide!, by decide!⟩

/-- C6 (amended): for a plane whose tabulation is well-formed (`2 n + 1` wire
groups of 6 paths, path `6 w + i` at `(w - n) P - P / 2 + i P / 10`) and
symmetric about the centre wire (paths tabulated at transverse positions `+p`
and `-p` carry identical current traces), for every `x` at which `closest x` is
non-null, `closest (-x)` is also non-null and the two responses have identical
spectra. -/
theorem closest_mirror_spectra (env : Collaborators) (fr : FieldResponse) (pn : ℤ)
    (tb : Binning) (g s : ℚ) (inst : PlaneImpactResponse) (pr : PlaneResponse) (n : ℕ) (P : ℚ)
    (x : ℚ) (a : ImpactResponse)
    (hpr : vecAt fr.planes pn = Except.ok pr) (hw : WellFormed n P pr)
    (hsym : ∀ p ∈ pr.paths, ∀ q ∈ pr.paths, p.pitchpos = -q.pitchpos → p.current = q.current)
    (h : construct env fr pn tb g s = Except.ok inst)
    (hc : inst.closest x = Except.ok (some a)) :
    ∃ b, inst.closest (-x) = Except.ok (some b) ∧ a.spectrum = b.spectrum := by
  have hwi := construct_wellFormed env fr pn tb g s inst pr n P hpr hw h
  have hP := hw.1
  have hloc := wf_locate n P inst hwi x
  have hlenb : (inst.m_bywire.length : ℤ) = 2 * (n : ℤ) + 1 := by
    simpa [PlaneImpactResponse.nwires] using wf_nwires n P inst hwi
  obtain ⟨hd, region, hreg, -⟩ := (closest_eq_some_iff inst x a).mp hc
  have hrange := vecAt_lt _ _ _ hreg
  rw [hloc] at hrange
  simp only at hrange
  rw [hlenb] at hrange
  push_neg at hd
  set r : ℤ := cround (x / P) with hr
  set t : ℚ := (x - (r : ℚ) * P) / (P / 10) with ht
  set jj : ℤ := cround t with hjj
  obtain ⟨c, hc1⟩ : ∃ c : ℕ, (c : ℤ) = (n : ℤ) + r := ⟨((n : ℤ) + r).toNat, by omega⟩
  obtain ⟨d, hd1⟩ : ∃ d : ℕ, (d : ℤ) = (n : ℤ) - r := ⟨((n : ℤ) - r).toNat, by omega⟩
  obtain ⟨a2, ha1, ha2⟩ := wf_closest n P inst hwi x hd.1 hd.2 c hc1 (by omega)
  rw [hc] at ha1
  cases ha1
  have e1 : cround (-x / P) = -r := by rw [neg_div, cround_neg]
  have e2 : (-x - ((-r : ℤ) : ℚ) * P) / (P / 10) = -t := by
    rw [ht]; push_cast; ring
  obtain ⟨b, hb1, hb2⟩ := wf_closest n P inst hwi (-x) (by linarith) (by linarith) d
    (by rw [e1]; omega) (by omega)
  rw [e1, e2, cround_neg] at hb2
  rw [← hr, ← ht, ← hjj] at ha2
  rw [← hjj] at hb2
  refine ⟨b, hb1, ?_⟩
  rcases lt_trichotomy jj 0 with hj | hj | hj
  · rw [if_pos (by omega)] at ha2
    rw [if_neg (by omega)] at hb2
    rw [show 6 * (2 * (n : ℤ) - (d : ℤ)) + (10 - (-jj + 5)) = 6 * (c : ℤ) + (jj + 5) by omega,
      ha2] at hb2
    cases hb2
    rfl
  · rw [hj] at ha2 hb2
    simp only [zero_add, neg_zero, le_refl, if_true] at ha2 hb2
    obtain ⟨rb, rs, elec, -, hir⟩ := construct_ir env fr pn tb g s inst pr hpr h
    have hlen := wellFormed_length n P pr hw
    have hcl : 6 * c + 5 < pr.paths.length := by omega
    have hdl : 6 * d + 5 < pr.paths.length := by omega
    have hpc : pr.paths[6 * c + 5]? = some pr.paths[6 * c + 5] := List.getElem?_eq_getElem hcl
    have hpd : pr.paths[6 * d + 5]? = some pr.paths[6 * d + 5] := List.getElem?_eq_getElem hdl
    obtain ⟨a3, ha3, ha4⟩ := hir _ _ hpc
    obtain ⟨b3, hb3, hb4⟩ := hir _ _ hpd
    have ha5 := ((vecAt_ok_iff _ _ _).mp ha2).2
    have hb5 := ((vecAt_ok_iff _ _ _).mp hb2).2
    rw [show (6 * (c : ℤ) + 5).toNat = 6 * c + 5 by omega, ha3] at ha5
    rw [show (6 * (d : ℤ) + 5).toNat = 6 * d + 5 by omega, hb3] at hb5
    cases ha5
    cases hb5
    apply makeImpactResponse_spectrum _ _ _ _ _ _ _ _ _ _ _ _ _ ?_ ha4 hb4
    apply hsym _ (List.getElem_mem hcl) _ (List.getElem_mem hdl)
    rw [wellFormed_pos n P pr hw _ _ hpc, wellFormed_pos n P pr hw _ _ hpd]
    simp only [gridPos, show (6 * c + 5) / 6 = c by omega, show (6 * c + 5) % 6 = 5 by omega,
      show (6 * d + 5) / 6 = d by omega, show (6 * d + 5) % 6 = 5 by omega]
    have hcq : (c : ℚ) = (n : ℚ) + (r : ℚ) := by exact_mod_cast hc1
    have hdq : (d : ℚ) = (n : ℚ) - (r : ℚ) := by exact_mod_cast hd1
    rw [hcq, hdq]
    push_cast
    ring
  · rw [if_neg (by omega)] at ha2
    rw [if_pos (by omega)] at hb2
    rw [show 6 * (d : ℤ) + (-jj + 5) = 6 * (2 * (n : ℤ) - (c : ℤ)) + (10 - (jj + 5)) by omega,
      ha2] at hb2
    cases hb2
    rfl

theorem closest_mirror_spectra_witness :
    WellFormed 1 10 threeWirePlane ∧
    construct sampleEnv threeWireField 0 twoBins 0 0 = Except.ok threeWireInstance ∧
    threeWireInstance.closest 10 = Except.ok (some ⟨17, [⟨11, 0⟩, ⟨12, 0⟩]⟩) ∧
    ∃ b, threeWireInstance.closest (-10) = Except.ok (some b) ∧
      (⟨17, [⟨11, 0⟩, ⟨12, 0⟩]⟩ : ImpactResponse).spectrum = b.spectrum :=
  ⟨threeWire_wellFormed, construct_threeWire, by decide!,
    closest_mirror_spectra sampleEnv threeWireField 0 twoBins 0 0 threeWireInstance
      threeWirePlane 1 10 10 ⟨17, [⟨11, 0⟩, ⟨12, 0⟩]⟩ threeWire_plane threeWire_wellFormed
      (by decide!) construct_threeWire (by decide!)⟩

theorem le_maxAbsPos (paths : List PathResponse) (p : PathResponse) (hp : p ∈ paths) :
    |p.pitchpos| ≤ maxAbsPos paths := by
  induction paths with
  | nil => cases hp
  | cons q rest ih =>
    simp only [maxAbsPos, List.foldr_cons]
    rcases List.mem_cons.mp hp with h | h
    · subst h; exact le_max_left _ _
    · exact le_trans (ih h) (le_max_right _ _)

theorem maxAbsPos_le (paths : List PathResponse) (b : ℚ) (hb : 0 ≤ b)
    (h : ∀ p ∈ paths, |p.pitchpos| ≤ b) : maxAbsPos paths ≤ b := by
  induction paths with
  | nil => simpa [maxAbsPos] using hb
  | cons q rest ih =>
    simp only [maxAbsPos, List.foldr_cons]
    exact max_le (h q (by simp)) (ih (fun p hp => h p (by simp [hp])))

/-- C7 (counterexample): construction completes on six paths listed out of
order, with `half_extent = 1` although the largest `|transverse_position|` is 5. -/
theorem half_extent_not_max_counterexample :
    vecAt shuffledField.planes 0 = Except.ok shuffledPlane ∧
    construct sampleEnv shuffledField 0 twoBins 0 0 = Except.ok shuffledInstance ∧
    shuffledInstance.m_half_extent = 1 ∧ maxAbsPos shuffledPlane.paths = 5 ∧
    shuffledInstance.m_half_extent ≠ maxAbsPos shuffledPlane.paths :=
  ⟨by decide!, by decide!, by decide!, by decide!, by decide!⟩

/-- C7 (amended): for any constructed instance whose input paths are listed
in ascending transverse position (the order the constructor assumes),
`half_extent` equals the maximum of `|transverse_position|` taken over all
input paths. -/
theorem half_extent_eq_max (env : Collaborators) (fr : FieldResponse) (pn : ℤ)
    (tb : Binning) (g s : ℚ) (inst : PlaneImpactResponse) (pr : PlaneResponse)
    (hpr : vecAt fr.planes pn = Except.ok pr)
    (h : construct env fr pn tb g s = Except.ok inst)
    (hs : List.Pairwise (fun a b => a ≤ b) (pr.paths.map (fun p => p.pitchpos))) :
    inst.m_half_extent = maxAbsPos pr.paths := by
  obtain ⟨pr2, p0, p1, plast, back, w2i, h1, h2, -, -, h5, -, -, -, h9, -⟩ :=
    construct_inv env fr pn tb g s inst h
  rw [hpr] at h1
  cases h1
  have g0 := ((vecAt_ok_iff _ _ _).mp h2).2
  have gb := ((vecAt_ok_iff _ _ _).mp h5).2
  simp only [Int.toNat_zero] at g0
  have hpos : 0 < pr.paths.length := (List.getElem?_eq_some_iff.mp g0).1
  rw [show ((pr.paths.length : ℤ) - 1).toNat = pr.paths.length - 1 by omega] at gb
  have hhead : pr.paths.head? = some p0 := by
    rw [← g0]; exact (List.head?_eq_getElem? pr.paths)
  have hlast : pr.paths.getLast? = some back := by
    rw [← gb]; exact List.getLast?_eq_getElem? pr.paths
  rw [h9]
  apply le_antisymm
  · apply max_le
    · exact le_maxAbsPos _ _ (List.mem_of_mem_head? hhead)
    · exact le_maxAbsPos _ _ (List.mem_of_mem_getLast? hlast)
  · apply maxAbsPos_le _ _ (le_max_of_le_left (abs_nonneg _))
    intro p hp
    obtain ⟨k, hk, hkp⟩ := List.getElem_of_mem hp
    rw [List.pairwise_iff_getElem] at hs
    have hk0 : (pr.paths[0]) = p0 := by
      have := (List.getElem?_eq_some_iff.mp g0).2; exact this
    have hkb : (pr.paths[pr.paths.length - 1]) = back := by
      have := (List.getElem?_eq_some_iff.mp gb).2; exact this
    have lo : p0.pitchpos ≤ p.pitchpos := by
      rcases Nat.eq_zero_or_pos k with hz | hz
      · subst hz; rw [← hkp, hk0]
      · have := hs 0 k (by simpa using hpos) (by simpa using hk) hz
        simp only [List.getElem_map] at this
        rw [hk0, hkp] at this
        exact this
    have hi : p.pitchpos ≤ back.pitchpos := by
      rcases Nat.lt_or_ge k (pr.paths.length - 1) with hz | hz
      · have := hs k (pr.paths.length - 1) (by simpa using hk) (by simp; omega) hz
        simp only [List.getElem_map] at this
        rw [hkb, hkp] at this
        exact this
      · have : k = pr.paths.length - 1 := by omega
        subst this
        rw [← hkp, hkb]
    rw [abs_le]
    constructor
    · have := neg_abs_le p0.pitchpos
      have := le_max_left |p0.pitchpos| |back.pitchpos|
      linarith
    · have := le_abs_self back.pitchpos
      have := le_max_right |p0.pitchpos| |back.pitchpos|
      linarith

theorem half_extent_eq_max_witness :
    construct sampleEnv oneWireField 0 twoBins 0 0 = Except.ok oneWireInstance ∧
    List.Pairwise (fun a b => a ≤ b) (oneWirePlane.paths.map (fun p => p.pitchpos)) ∧
    oneWireInstance.m_half_extent = maxAbsPos oneWirePlane.paths :=
  ⟨construct_oneWire, by decide!,
    half_extent_eq_max sampleEnv oneWireField 0 twoBins 0 0 oneWireInstance oneWirePlane
      oneWire_plane construct_oneWire (by decide!)⟩

theorem center_rawresp (size r : ℕ) (hr : r < size) (mn tk : ℚ) :
    (⟨size, mn, mn + (size : ℚ) * tk⟩ : Binning).center r = mn + ((r : ℚ) + 1 / 2) * tk := by
  have hs : (size : ℚ) ≠ 0 := by
    have : 0 < size := by omega
    exact_mod_cast (ne_of_gt this)
  simp only [Binning.center, Binning.binsize]
  field_simp

theorem resampleLoop_abort (rb : Binning) (tick : ℚ) (nt : ℕ) (current : List ℚ)
    (rinds : List ℕ) (wave : List ℚ) (hcur : ∀ r ∈ rinds, r < current.length)
    (hbad : ∃ r ∈ rinds, ctrunc (rb.center r / tick) < 0 ∨ ctrunc (rb.center r / tick) ≥ (nt : ℤ)) :
    resampleLoop rb tick nt current rinds wave = Except.error Failure.abort := by
  induction rinds generalizing wave with
  | nil => obtain ⟨r, hr, -⟩ := hbad; cases hr
  | cons r0 rest ih =>
    simp only [resampleLoop]
    by_cases h0 : ctrunc (rb.center r0 / tick) < 0 ∨ ctrunc (rb.center r0 / tick) ≥ (nt : ℤ)
    · rw [if_pos h0]
    · rw [if_neg h0]
      have hlt := hcur r0 (by simp)
      rw [List.getElem?_eq_getElem hlt]
      simp only
      apply ih
      · intro r hr; exact hcur r (by simp [hr])
      · obtain ⟨r, hr, hb⟩ := hbad
        rcases List.mem_cons.mp hr with h | h
        · subst h; exact absurd hb h0
        · exact ⟨r, h, hb⟩

theorem construct_reads (pr : PlaneResponse)
    (hlen : 6 ≤ pr.paths.length) :
    ∃ p0 p1 plast back, vecAt pr.paths 0 = Except.ok p0 ∧ vecAt pr.paths 1 = Except.ok p1 ∧
      vecAt pr.paths 5 = Except.ok plast ∧
      vecAt pr.paths ((pr.paths.length : ℤ) - 1) = Except.ok back ∧
      pr.paths.head? = some p0 := by
  obtain ⟨p0, h0⟩ := vecAt_of_lt pr.paths 0 (by norm_num) (by omega)
  obtain ⟨p1, h1⟩ := vecAt_of_lt pr.paths 1 (by norm_num) (by omega)
  obtain ⟨p5, h5⟩ := vecAt_of_lt pr.paths 5 (by norm_num) (by omega)
  obtain ⟨pb, hb⟩ := vecAt_of_lt pr.paths ((pr.paths.length : ℤ) - 1) (by omega) (by omega)
  refine ⟨p0, p1, p5, pb, h0, h1, h5, hb, ?_⟩
  have := ((vecAt_ok_iff _ _ _).mp h0).2
  simp only [Int.toNat_zero] at this
  rw [← this]
  exact List.head?_eq_getElem? pr.paths

theorem construct_eval (env : Collaborators) (fr : FieldResponse) (pn : ℤ) (tb : Binning)
    (g s : ℚ) (pr : PlaneResponse) (p0 : PathResponse)
    (hpr : vecAt fr.planes pn = Except.ok pr) (hlen : 6 ≤ pr.paths.length)
    (hp0 : pr.paths.head? = some p0) :
    (∀ e, pathLoop env pr.pitch
        ⟨p0.current.length, fr.tstart * env.us,
          fr.tstart * env.us + (p0.current.length : ℚ) * (fr.period * env.us)⟩
        p0.current.length tb.binsize tb.nbins g
        (if g > 0 then env.dft (env.coldElec g s tb) else [])
        pr.paths 0 (fun _ => []) [] = Except.error e →
      construct env fr pn tb g s = Except.error e) ∧
    (∀ w2i ir rows, pathLoop env pr.pitch
        ⟨p0.current.length, fr.tstart * env.us,
          fr.tstart * env.us + (p0.current.length : ℚ) * (fr.period * env.us)⟩
        p0.current.length tb.binsize tb.nbins g
        (if g > 0 then env.dft (env.coldElec g s tb) else [])
        pr.paths 0 (fun _ => []) [] = Except.ok (w2i, ir) →
      symLoop w2i (relWires (pr.paths.length / 6 / 2)) [] = Except.ok rows →
      ∃ inst, construct env fr pn tb g s = Except.ok inst) := by
  obtain ⟨q0, p1, plast, back, h0, h1, h5, hb, hh⟩ := construct_reads pr hlen
  rw [hp0] at hh
  cases hh
  constructor
  · intro e he
    unfold construct
    simp only [bind, Except.bind, hpr, h0, h1, hb]
    norm_num [h5, he]
  · intro w2i ir rows hpl hsl
    unfold construct
    simp only [bind, Except.bind, hpr, h0, h1, hb]
    norm_num [h5, hpl, hsl]

theorem spectrumOf_abort (env : Collaborators) (fr : FieldResponse) (tb : Binning)
    (g : ℚ) (elec : List Cplx) (size : ℕ) (path : PathResponse) (r : ℕ)
    (hsize : size ≤ path.current.length) (hr : r < size)
    (hbad : binIndex env fr tb r < 0 ∨ binIndex env fr tb r ≥ (tb.nbins : ℤ)) :
    spectrumOf env
      ⟨size, fr.tstart * env.us, fr.tstart * env.us + (size : ℚ) * (fr.period * env.us)⟩
      size tb.binsize tb.nbins g elec path = Except.error Failure.abort := by
  unfold spectrumOf
  rw [resampleLoop_abort _ _ _ _ _ _ (fun q hq => by
      have := List.mem_range.mp hq
      omega)
    ⟨r, List.mem_range.mpr hr, by
      rw [center_rawresp size r hr]
      exact hbad⟩]

/-- C8 (counterexample): construction completes although native samples lie
outside the target window: with the window `[0, 1000)` the first native sample
is centred at `-150`, and with the window `[500, 1500)` it is centred at `250`. -/
theorem sample_outside_window_counterexample :
    construct sampleEnv earlyField 0 twoBins 0 0 = Except.ok earlyInstance ∧
    nativeTime sampleEnv earlyField 0 = -150 ∧ twoBins.minval = 0 ∧
    binIndex sampleEnv earlyField twoBins 0 = 0 ∧
    construct sampleEnv oneWireField 0 shiftedBins 0 0 = Except.ok oneWireInstance ∧
    nativeTime sampleEnv oneWireField 0 = 250 ∧ shiftedBins.minval = 500 ∧
    binIndex sampleEnv oneWireField shiftedBins 0 = 0 :=
  ⟨by decide!, by decide!, by decide!, by decide!, by decide!, by decide!, by decide!,
    by decide!⟩

theorem construct_abort_of_bad (env : Collaborators) (fr : FieldResponse)
    (pn : ℤ) (tb : Binning) (g s : ℚ) (pr : PlaneResponse) (p0 : PathResponse) (r : ℕ)
    (hpr : vecAt fr.planes pn = Except.ok pr) (hlen : 6 ≤ pr.paths.length)
    (hp0 : pr.paths.head? = some p0) (hr : r < p0.current.length)
    (hbad : binIndex env fr tb r < 0 ∨ binIndex env fr tb r ≥ (tb.nbins : ℤ)) :
    construct env fr pn tb g s = Except.error Failure.abort := by
  apply (construct_eval env fr pn tb g s pr p0 hpr hlen hp0).1
  cases hpaths : pr.paths with
  | nil => rw [hpaths] at hp0; cases hp0
  | cons q rest =>
    rw [hpaths] at hp0
    simp only [List.head?_cons, Option.some.injEq] at hp0
    subst hp0
    apply pathLoop_error_head
    unfold makeImpactResponse
    rw [spectrumOf_abort env fr tb g _ _ q r (le_refl _) hr hbad]

/-- C8 (amended): on a tabulation of at least six paths, if any native sample
`r` of the trace has a truncated target bin index `trunc (time / tick)` outside
`[0, bin_count)`, where `time = tstart + (r + 1/2) * period` is the centre of
native bin `r` and `tick` the target bin size, construction aborts. -/
theorem construct_aborts_of_bin_out_of_range (env : Collaborators) (fr : FieldResponse)
    (pn : ℤ) (tb : Binning) (g s : ℚ) (pr : PlaneResponse) (p0 : PathResponse) (r : ℕ)
    (hpr : vecAt fr.planes pn = Except.ok pr) (hlen : 6 ≤ pr.paths.length)
    (hp0 : pr.paths.head? = some p0) (hr : r < p0.current.length)
    (hbad : binIndex env fr tb r < 0 ∨ binIndex env fr tb r ≥ (tb.nbins : ℤ)) :
    construct env fr pn tb g s = Except.error Failure.abort :=
  construct_abort_of_bad env fr pn tb g s pr p0 r hpr hlen hp0 hr hbad

theorem construct_aborts_of_bin_out_of_range_witness :
    binIndex sampleEnv oneWireField ⟨1, 0, 500⟩ 1 ≥ (((⟨1, 0, 500⟩ : Binning).nbins : ℕ) : ℤ) ∧
    construct sampleEnv oneWireField 0 ⟨1, 0, 500⟩ 0 0 = Except.error Failure.abort :=
  ⟨by decide!,
    construct_aborts_of_bin_out_of_range sampleEnv oneWireField 0 ⟨1, 0, 500⟩ 0 0 oneWirePlane
      ⟨[1, 2], -5⟩ 1 oneWire_plane (by decide!) (by decide!) (by decide!) (by decide!)⟩

theorem cround_half (n : ℕ) : cround ((n : ℚ) + 1 / 2) = (n : ℤ) + 1 := by
  have hn : (0 : ℚ) ≤ (n : ℚ) := Nat.cast_nonneg _
  unfold cround
  rw [if_pos (by linarith)]
  rw [show (n : ℚ) + 1 / 2 + 1 / 2 = (((n : ℤ) + 1 : ℤ) : ℚ) by push_cast; ring]
  exact Int.floor_intCast _

theorem wf_bounded_endpoint (n : ℕ) (P : ℚ) (p : PlaneImpactResponse)
    (hw : WellFormedInstance n P p) :
    (p.closest_wire_impact p.m_half_extent).1 = (p.m_bywire.length : ℤ) ∧
      p.closest p.m_half_extent = Except.ok none ∧
      p.bounded p.m_half_extent = Except.error Failure.undefined := by
  have hloc := wf_locate n P p hw p.m_half_extent
  have hlen : (p.m_bywire.length : ℤ) = 2 * (n : ℤ) + 1 := by
    simpa [PlaneImpactResponse.nwires] using wf_nwires n P p hw
  obtain ⟨hP, -, -, hh, -, -⟩ := hw
  have hne : P ≠ 0 := ne_of_gt hP
  have hn : (0 : ℚ) ≤ (n : ℚ) := Nat.cast_nonneg _
  have hpos : 0 ≤ p.m_half_extent := by rw [hh]; positivity
  have e : p.m_half_extent / P = (n : ℚ) + 1 / 2 := by rw [hh]; field_simp; ring
  have hrow : (p.closest_wire_impact p.m_half_extent).1 = (p.m_bywire.length : ℤ) := by
    rw [hloc, e, cround_half, hlen]
    ring
  have hd : ¬ (p.m_half_extent < -p.m_half_extent ∨ p.m_half_extent > p.m_half_extent) := by
    rintro (h | h) <;> linarith
  refine ⟨hrow, closest_none_of_row p _ (Or.inr (le_of_eq hrow.symm)), ?_⟩
  unfold PlaneImpactResponse.bounded
  rw [if_neg hd]
  simp only [hrow]
  have : vecAt p.m_bywire (p.m_bywire.length : ℤ) = Except.error Failure.undefined := by
    unfold vecAt
    simp
  rw [this]

theorem cround_intCast (z : ℤ) : cround (z : ℚ) = z := by
  unfold cround
  split_ifs with h
  · rw [show (z : ℚ) + 1 / 2 = 1 / 2 + (z : ℚ) by ring, Int.floor_add_int]
    norm_num
  · rw [show -(z : ℚ) + 1 / 2 = 1 / 2 + ((-z : ℤ) : ℚ) by push_cast; ring, Int.floor_add_int]
    norm_num

theorem wf_locate_midpoint (n : ℕ) (P : ℚ) (p : PlaneImpactResponse)
    (hw : WellFormedInstance n P p) (k : ℕ) :
    p.closest_wire_impact (((k : ℚ) + 1 / 2) * p.m_pitch) = ((n : ℤ) + ((k : ℤ) + 1), 0) ∧
    p.closest_wire_impact (-(((k : ℚ) + 1 / 2) * p.m_pitch)) = ((n : ℤ) - ((k : ℤ) + 1), 10) := by
  have hP := hw.1
  have hne : P ≠ 0 := ne_of_gt hP
  have hp : p.m_pitch = P := hw.2.2.1
  have e : ((k : ℚ) + 1 / 2) * P / P = (k : ℚ) + 1 / 2 := by field_simp; ring
  constructor
  · rw [wf_locate n P p hw, hp, e, cround_half]
    have e2 : (((k : ℚ) + 1 / 2) * P - (((k : ℤ) + 1 : ℤ) : ℚ) * P) / (P / 10) = ((-5 : ℤ) : ℚ) := by
      push_cast; field_simp; ring
    rw [e2, cround_intCast]
    norm_num
  · rw [wf_locate n P p hw, hp, neg_div, cround_neg, e, cround_half]
    have e2 : (-(((k : ℚ) + 1 / 2) * P) - ((-((k : ℤ) + 1) : ℤ) : ℚ) * P) / (P / 10)
        = ((5 : ℤ) : ℚ) := by
      push_cast; field_simp; ring
    rw [e2, cround_intCast]
    norm_num
    ring

/-- C11: on an instance built from a well-formed tabulation, at every exact
midpoint between two wires, `x = (k + 1/2) * wire_spacing` with `k < n`, the
located impact index is the first position of its row and `bounded x` returns
`(row[0], row[1])`; at `-x` the located impact index is the last position of
its row and `bounded (-x)` returns `(row[last - 1], row[last])`. -/
theorem bounded_at_wire_midpoint (env : Collaborators) (fr : FieldResponse) (pn : ℤ)
    (tb : Binning) (g s : ℚ) (inst : PlaneImpactResponse) (pr : PlaneResponse) (n : ℕ) (P : ℚ)
    (k : ℕ)
    (hpr : vecAt fr.planes pn = Except.ok pr) (hw : WellFormed n P pr)
    (h : construct env fr pn tb g s = Except.ok inst) (hk : k < n) :
    (∃ region a b,
      vecAt inst.m_bywire (inst.closest_wire_impact (((k : ℚ) + 1 / 2) * inst.m_pitch)).1
        = Except.ok region ∧
      (inst.closest_wire_impact (((k : ℚ) + 1 / 2) * inst.m_pitch)).2 = 0 ∧
      inst.entry region 0 = Except.ok a ∧ inst.entry region 1 = Except.ok b ∧
      inst.bounded (((k : ℚ) + 1 / 2) * inst.m_pitch) = Except.ok (some a, some b)) ∧
    (∃ region a b,
      vecAt inst.m_bywire (inst.closest_wire_impact (-(((k : ℚ) + 1 / 2) * inst.m_pitch))).1
        = Except.ok region ∧
      (inst.closest_wire_impact (-(((k : ℚ) + 1 / 2) * inst.m_pitch))).2
        = (region.length : ℤ) - 1 ∧
      inst.entry region ((region.length : ℤ) - 2) = Except.ok a ∧
      inst.entry region ((region.length : ℤ) - 1) = Except.ok b ∧
      inst.bounded (-(((k : ℚ) + 1 / 2) * inst.m_pitch)) = Except.ok (some a, some b)) := by
  have hwi := construct_wellFormed env fr pn tb g s inst pr n P hpr hw h
  obtain ⟨hl1, hl2⟩ := wf_locate_midpoint n P inst hwi k
  have hP := hwi.1
  have hp : inst.m_pitch = P := hwi.2.2.1
  have hh : inst.m_half_extent = ((n : ℚ) + 1 / 2) * P := hwi.2.2.2.1
  have hkq : (k : ℚ) < (n : ℚ) := by exact_mod_cast hk
  have hk0 : (0 : ℚ) ≤ (k : ℚ) := Nat.cast_nonneg _
  have hx0 : 0 ≤ ((k : ℚ) + 1 / 2) * inst.m_pitch := by rw [hp]; positivity
  have hx1 : ((k : ℚ) + 1 / 2) * inst.m_pitch ≤ inst.m_half_extent := by
    rw [hp, hh]; nlinarith
  have hd1 : ¬ (((k : ℚ) + 1 / 2) * inst.m_pitch < -inst.m_half_extent ∨
      ((k : ℚ) + 1 / 2) * inst.m_pitch > inst.m_half_extent) := by
    rintro (h1 | h1) <;> linarith
  have hd2 : ¬ (-(((k : ℚ) + 1 / 2) * inst.m_pitch) < -inst.m_half_extent ∨
      -(((k : ℚ) + 1 / 2) * inst.m_pitch) > inst.m_half_extent) := by
    rintro (h1 | h1) <;> linarith
  have hrl : ∀ c, ((wfRow n c).length : ℤ) = 11 := by
    intro c; rw [wfRow_length]; rfl
  constructor
  · have hrow := wf_row n P inst hwi (n + (k + 1)) (by omega)
    push_cast at hrow
    obtain ⟨a, ha, -⟩ := wf_entry n P inst hwi (n + (k + 1)) (by omega) 0 (by norm_num)
      (by norm_num)
    obtain ⟨b, hb, -⟩ := wf_entry n P inst hwi (n + (k + 1)) (by omega) 1 (by norm_num)
      (by norm_num)
    refine ⟨wfRow n (n + (k + 1)), a, b, by rw [hl1]; exact hrow, by rw [hl1], ha, hb, ?_⟩
    unfold PlaneImpactResponse.bounded
    rw [if_neg hd1, hl1]
    simp only [hrow, if_true]
    exact pairAt_of_entry inst _ 0 1 a b ha hb
  · have hrow := wf_row n P inst hwi (n - (k + 1)) (by omega)
    rw [show ((n - (k + 1) : ℕ) : ℤ) = (n : ℤ) - ((k : ℤ) + 1) by omega] at hrow
    obtain ⟨a, ha, -⟩ := wf_entry n P inst hwi (n - (k + 1)) (by omega) 9 (by norm_num)
      (by norm_num)
    obtain ⟨b, hb, -⟩ := wf_entry n P inst hwi (n - (k + 1)) (by omega) 10 (by norm_num)
      (by norm_num)
    refine ⟨wfRow n (n - (k + 1)), a, b, by rw [hl2]; exact hrow, by rw [hl2, hrl]; norm_num,
      by rw [hrl]; exact ha, by rw [hrl]; exact hb, ?_⟩
    unfold PlaneImpactResponse.bounded
    rw [if_neg hd2, hl2]
    simp only [hrow, hrl]
    norm_num
    exact pairAt_of_entry inst _ 9 10 a b ha hb

theorem bounded_at_wire_midpoint_witness :
    WellFormed 1 10 threeWirePlane ∧
    construct sampleEnv threeWireField 0 twoBins 0 0 = Except.ok threeWireInstance ∧
    (∃ region a b,
      vecAt threeWireInstance.m_bywire
        (threeWireInstance.closest_wire_impact
          ((((0 : ℕ) : ℚ) + 1 / 2) * threeWireInstance.m_pitch)).1 = Except.ok region ∧
      (threeWireInstance.closest_wire_impact
        ((((0 : ℕ) : ℚ) + 1 / 2) * threeWireInstance.m_pitch)).2 = 0 ∧
      threeWireInstance.entry region 0 = Except.ok a ∧
      threeWireInstance.entry region 1 = Except.ok b ∧
      threeWireInstance.bounded ((((0 : ℕ) : ℚ) + 1 / 2) * threeWireInstance.m_pitch)
        = Except.ok (some a, some b)) ∧
    (∃ region a b,
      vecAt threeWireInstance.m_bywire
        (threeWireInstance.closest_wire_impact
          (-((((0 : ℕ) : ℚ) + 1 / 2) * threeWireInstance.m_pitch))).1 = Except.ok region ∧
      (threeWireInstance.closest_wire_impact
        (-((((0 : ℕ) : ℚ) + 1 / 2) * threeWireInstance.m_pitch))).2
        = (region.length : ℤ) - 1 ∧
      threeWireInstance.entry region ((region.length : ℤ) - 2) = Except.ok a ∧
      threeWireInstance.entry region ((region.length : ℤ) - 1) = Except.ok b ∧
      threeWireInstance.bounded (-((((0 : ℕ) : ℚ) + 1 / 2) * threeWireInstance.m_pitch))
        = Except.ok (some a, some b)) :=
  ⟨threeWire_wellFormed, construct_threeWire,
    bounded_at_wire_midpoint sampleEnv threeWireField 0 twoBins 0 0 threeWireInstance
      threeWirePlane 1 10 0 threeWire_plane threeWire_wellFormed construct_threeWire
      (by decide)⟩

/-- C12: for every constructed instance, `m_ir` has exactly one entry per input
path, in tabulation order, and the `i`-th entry carries index `i`. -/
theorem responses_indexed_by_path (env : Collaborators) (fr : FieldResponse) (pn : ℤ)
    (tb : Binning) (g s : ℚ) (inst : PlaneImpactResponse) (pr : PlaneResponse)
    (hpr : vecAt fr.planes pn = Except.ok pr)
    (h : construct env fr pn tb g s = Except.ok inst) :
    inst.m_ir.length = pr.paths.length ∧
    ∀ i, i < pr.paths.length → ∃ a, inst.m_ir[i]? = some a ∧ a.index = (i : ℤ) := by
  obtain ⟨rb, rs, elec, hlen, hir⟩ := construct_ir env fr pn tb g s inst pr hpr h
  refine ⟨hlen, ?_⟩
  intro i hi
  obtain ⟨a, ha1, ha2⟩ := hir i pr.paths[i] (List.getElem?_eq_getElem hi)
  exact ⟨a, ha1, ((makeImpactResponse_ok_iff _ _ _ _ _ _ _ _ _ _).mp ha2).1⟩

theorem responses_indexed_by_path_witness :
    construct sampleEnv threeWireField 0 twoBins 0 0 = Except.ok threeWireInstance ∧
    threeWireInstance.m_ir.length = threeWirePlane.paths.length ∧
    ∀ i, i < threeWirePlane.paths.length →
      ∃ a, threeWireInstance.m_ir[i]? = some a ∧ a.index = (i : ℤ) :=
  ⟨construct_threeWire,
    responses_indexed_by_path sampleEnv threeWireField 0 twoBins 0 0 threeWireInstance
      threeWirePlane threeWire_plane construct_threeWire⟩

theorem scaleLoop_spec (elec : List Cplx) (fs : List ℕ) (spec sp : List Cplx)
    (hnd : fs.Nodup) (h : scaleLoop elec fs spec = Except.ok sp) :
    (∀ f ∈ fs, ∃ sf ef, spec[f]? = some sf ∧ elec[f]? = some ef ∧ sp[f]? = some (sf.mul ef)) ∧
    (∀ f, f ∉ fs → sp[f]? = spec[f]?) := by
  induction fs generalizing spec with
  | nil =>
    simp only [scaleLoop, Except.ok.injEq] at h
    subst h
    exact ⟨fun f hf => (by cases hf), fun f _ => rfl⟩
  | cons f rest ih =>
    simp only [scaleLoop] at h
    obtain ⟨hfr, hrest⟩ := List.nodup_cons.mp hnd
    cases hs : spec[f]? with
    | none => simp [hs] at h
    | some sf =>
      cases he : elec[f]? with
      | none => simp [hs, he] at h
      | some ef =>
        simp only [hs, he] at h
        obtain ⟨ih1, ih2⟩ := ih (spec.set f (sf.mul ef)) hrest h
        have hflt : f < spec.length := (List.getElem?_eq_some_iff.mp hs).1
        constructor
        · intro q hq
          rcases List.mem_cons.mp hq with hq | hq
          · subst hq
            refine ⟨sf, ef, hs, he, ?_⟩
            rw [ih2 q hfr]
            simp [List.getElem?_set, hflt]
          · obtain ⟨s2, e2, h1, h2, h3⟩ := ih1 q hq
            have hne : f ≠ q := fun hc => hfr (hc ▸ hq)
            refine ⟨s2, e2, ?_, h2, h3⟩
            rw [← h1]
            simp [List.getElem?_set, hne]
        · intro q hq
          have hne : f ≠ q := fun hc => hq (by simp [hc])
          rw [ih2 q (fun hc => hq (List.mem_cons_of_mem _ hc))]
          simp [List.getElem?_set, hne]

theorem construct_ir_explicit (env : Collaborators) (fr : FieldResponse) (pn : ℤ)
    (tb : Binning) (g s : ℚ) (inst : PlaneImpactResponse) (pr : PlaneResponse)
    (hpr : vecAt fr.planes pn = Except.ok pr)
    (h : construct env fr pn tb g s = Except.ok inst) :
    ∃ p0, pr.paths.head? = some p0 ∧
      ∀ k p, pr.paths[k]? = some p →
        ∃ a, inst.m_ir[k]? = some a ∧
          makeImpactResponse env
            ⟨p0.current.length, fr.tstart * env.us,
              fr.tstart * env.us + (p0.current.length : ℚ) * (fr.period * env.us)⟩
            p0.current.length tb.binsize tb.nbins g
            (if g > 0 then env.dft (env.coldElec g s tb) else []) k p = Except.ok a := by
  obtain ⟨pr2, p0, p1, plast, back, w2i, h1, h2, -, -, -, h6, -⟩ :=
    construct_inv env fr pn tb g s inst h
  rw [hpr] at h1
  cases h1
  obtain ⟨-, made, hm1, hm2, hm3⟩ := pathLoop_inv _ _ _ _ _ _ _ _ _ _ _ _ _ _ h6
  simp only [List.nil_append] at hm1
  have g0 := ((vecAt_ok_iff _ _ _).mp h2).2
  simp only [Int.toNat_zero] at g0
  refine ⟨p0, by rw [← g0]; exact List.head?_eq_getElem? pr.paths, ?_⟩
  intro k p hk
  obtain ⟨a, ha1, ha2⟩ := hm3 k p hk
  refine ⟨a, by rw [hm1]; exact ha1, ?_⟩
  simpa using ha2

/-- C13: with the forward transform left abstract (`env.dft`), for every path
the stored spectrum equals `dft wave` of the resampled waveform when
`gain ≤ 0`, and when `gain > 0` it equals, at every frequency bin
`f < bin_count`, the product of `dft wave` and the transform of the electronics
impulse response over the target binning. -/
theorem stored_spectrum (env : Collaborators) (fr : FieldResponse) (pn : ℤ)
    (tb : Binning) (g s : ℚ) (inst : PlaneImpactResponse) (pr : PlaneResponse)
    (hpr : vecAt fr.planes pn = Except.ok pr)
    (h : construct env fr pn tb g s = Except.ok inst) :
    ∃ p0, pr.paths.head? = some p0 ∧
      ∀ (i : ℕ) (path : PathResponse), pr.paths[i]? = some path →
        ∃ (a : ImpactResponse) (wave : List ℚ), inst.m_ir[i]? = some a ∧
          resample env fr tb p0.current.length path = Except.ok wave ∧
          (g ≤ 0 → a.spectrum = env.dft wave) ∧
          (0 < g → ∀ f, f < tb.nbins →
            ∃ sf ef, (env.dft wave)[f]? = some sf ∧
              (env.dft (env.coldElec g s tb))[f]? = some ef ∧
              a.spectrum[f]? = some (sf.mul ef)) := by
  obtain ⟨p0, hp0, hir⟩ := construct_ir_explicit env fr pn tb g s inst pr hpr h
  refine ⟨p0, hp0, ?_⟩
  intro i path hi
  obtain ⟨a, ha1, ha2⟩ := hir i path hi
  have hsp := ((makeImpactResponse_ok_iff _ _ _ _ _ _ _ _ _ _).mp ha2).2
  unfold spectrumOf at hsp
  cases hwave : resampleLoop
      ⟨p0.current.length, fr.tstart * env.us,
        fr.tstart * env.us + (p0.current.length : ℚ) * (fr.period * env.us)⟩
      tb.binsize tb.nbins path.current (List.range p0.current.length)
      (List.replicate tb.nbins 0) with
  | error e => simp [hwave] at hsp
  | ok wave =>
    simp only [hwave] at hsp
    refine ⟨a, wave, ha1, hwave, ?_, ?_⟩
    · intro hg
      rw [if_neg (by linarith)] at hsp
      exact (Except.ok.inj hsp).symm
    · intro hg f hf
      rw [if_pos hg, if_pos hg] at hsp
      exact (scaleLoop_spec _ _ _ _ (List.nodup_range _) hsp).1 f (List.mem_range.mpr hf)

theorem construct_oneWire_gain :
    construct sampleEnv oneWireField 0 twoBins 1 1 = Except.ok oneWireInstance := by
  decide!

theorem stored_spectrum_witness :
    construct sampleEnv oneWireField 0 twoBins 1 1 = Except.ok oneWireInstance ∧
    ∃ p0, oneWirePlane.paths.head? = some p0 ∧
      ∀ (i : ℕ) (path : PathResponse), oneWirePlane.paths[i]? = some path →
        ∃ (a : ImpactResponse) (wave : List ℚ), oneWireInstance.m_ir[i]? = some a ∧
          resample sampleEnv oneWireField twoBins p0.current.length path = Except.ok wave ∧
          ((1 : ℚ) ≤ 0 → a.spectrum = sampleEnv.dft wave) ∧
          (0 < (1 : ℚ) → ∀ f, f < twoBins.nbins →
            ∃ sf ef, (sampleEnv.dft wave)[f]? = some sf ∧
              (sampleEnv.dft (sampleEnv.coldElec 1 1 twoBins))[f]? = some ef ∧
              a.spectrum[f]? = some (sf.mul ef)) :=
  ⟨construct_oneWire_gain,
    stored_spectrum sampleEnv oneWireField 0 twoBins 1 1 oneWireInstance oneWirePlane
      oneWire_plane construct_oneWire_gain⟩

theorem collectInd_eq_group (pitch : ℚ) (paths : List PathResponse) (i : ℕ)
    (m : ℤ → List ℤ) (w : ℤ) :
    collectInd (paths.map (fun p => ⌈p.pitchpos / pitch⌉)) i m w =
      m w ++ ((paths.enumFrom i).filter
        (fun ip => decide (⌈ip.2.pitchpos / pitch⌉ = w))).map (fun ip => (ip.1 : ℤ)) := by
  induction paths generalizing i m with
  | nil => simp [collectInd]
  | cons p rest ih =>
    simp only [List.map_cons, collectInd, List.enumFrom_cons]
    rw [ih]
    by_cases hw : ⌈p.pitchpos / pitch⌉ = w
    · rw [List.filter_cons_of_pos (by simpa using hw)]
      simp [pushInd, hw]
    · rw [List.filter_cons_of_neg (by simpa using hw)]
      have hw2 : ¬ (w = ⌈p.pitchpos / pitch⌉) := fun hc => hw hc.symm
      simp [pushInd, hw2]

theorem symRow_inv (w2i : ℤ → List ℤ) (k : ℤ) (region : List ℤ)
    (h : symRow w2i k = Except.ok region) :
    region = w2i k ++ (w2i (-k)).reverse.tail ∧ w2i (-k) ≠ [] := by
  unfold symRow at h
  simp only at h
  split at h
  · cases h
  · rename_i o others ho
    simp only [Except.ok.injEq] at h
    subst h
    refine ⟨by rw [ho]; rfl, ?_⟩
    intro hc
    rw [hc] at ho
    cases ho

theorem symLoop_inv (w2i : ℤ → List ℤ) (ks : List ℤ) (acc rows : List (List ℤ))
    (h : symLoop w2i ks acc = Except.ok rows) :
    rows = acc ++ ks.map (fun k => w2i k ++ (w2i (-k)).reverse.tail) := by
  induction ks generalizing acc with
  | nil =>
    simp only [symLoop, Except.ok.injEq] at h
    subst h
    simp
  | cons k rest ih =>
    simp only [symLoop] at h
    split at h
    · cases h
    · rename_i indices hi
      rw [ih _ h, (symRow_inv _ _ _ hi).1]
      simp

/-- C15: for every constructed instance, `m_bywire` has exactly `2 h + 1` rows
with `h = floor (floor (npaths / 6) / 2)`, and the row at index `r` (relative
wire offset `k = r - h`) equals `G(k) ++ tail (reverse (G(-k)))`, where `G(w)`
lists in tabulation order the path indices whose wire number
`ceil (transverse_position / nominal_wire_pitch)` is `w`. -/
theorem bywire_rows (env : Collaborators) (fr : FieldResponse) (pn : ℤ)
    (tb : Binning) (g s : ℚ) (inst : PlaneImpactResponse) (pr : PlaneResponse)
    (hpr : vecAt fr.planes pn = Except.ok pr)
    (h : construct env fr pn tb g s = Except.ok inst) :
    inst.m_bywire.length = 2 * (pr.paths.length / 6 / 2) + 1 ∧
    ∀ r, r < 2 * (pr.paths.length / 6 / 2) + 1 →
      inst.m_bywire[r]? = some
        (wireGroup pr ((r : ℤ) - ((pr.paths.length / 6 / 2 : ℕ) : ℤ)) ++
          (wireGroup pr (-((r : ℤ) - ((pr.paths.length / 6 / 2 : ℕ) : ℤ)))).reverse.tail) := by
  obtain ⟨pr2, p0, p1, plast, back, w2i, h1, -, -, -, -, h6, h7, -⟩ :=
    construct_inv env fr pn tb g s inst h
  rw [hpr] at h1
  cases h1
  obtain ⟨hw, -⟩ := pathLoop_inv _ _ _ _ _ _ _ _ _ _ _ _ _ _ h6
  have hrows := symLoop_inv _ _ _ _ h7
  simp only [List.nil_append] at hrows
  have hgrp : ∀ w, w2i w = wireGroup pr w := by
    intro w
    rw [hw, collectInd_eq_group]
    rfl
  constructor
  · rw [hrows]
    simp [relWires]
  · intro r hr
    rw [hrows, relWires, List.map_map, List.getElem?_map, List.getElem?_range hr]
    simp only [Option.map_some', Function.comp_apply, hgrp]

theorem bywire_rows_witness :
    construct sampleEnv threeWireField 0 twoBins 0 0 = Except.ok threeWireInstance ∧
    threeWireInstance.m_bywire.length = 2 * (threeWirePlane.paths.length / 6 / 2) + 1 ∧
    ∀ r, r < 2 * (threeWirePlane.paths.length / 6 / 2) + 1 →
      threeWireInstance.m_bywire[r]? = some
        (wireGroup threeWirePlane ((r : ℤ) - ((threeWirePlane.paths.length / 6 / 2 : ℕ) : ℤ)) ++
          (wireGroup threeWirePlane
            (-((r : ℤ) - ((threeWirePlane.paths.length / 6 / 2 : ℕ) : ℤ)))).reverse.tail) :=
  ⟨construct_threeWire,
    bywire_rows sampleEnv threeWireField 0 twoBins 0 0 threeWireInstance threeWirePlane
      threeWire_plane construct_threeWire⟩

theorem snap_within_half (x d : ℚ) (hd : 0 < d) :
    |x - (cround (x / d) : ℚ) * d| ≤ d / 2 := by
  have hne : d ≠ 0 := ne_of_gt hd
  have h1 := cround_sub_le (x / d)
  have h2 := le_cround_add (x / d)
  have e : x = x / d * d := by field_simp
  have h3 := mul_le_mul_of_nonneg_right h1 (le_of_lt hd)
  have h4 := mul_le_mul_of_nonneg_right h2 (le_of_lt hd)
  rw [← e] at h3 h4
  rw [abs_le]
  constructor <;> linarith

theorem locate_snap_general (p : PlaneImpactResponse) (x : ℚ)
    (hp : 0 < p.m_pitch) (hi : 0 < p.m_impact) :
    |x - (((p.closest_wire_impact x).1 - p.nwires / 2 : ℤ) : ℚ) * p.m_pitch| ≤ p.m_pitch / 2 ∧
    |x - p.rowPos (p.closest_wire_impact x).1 (p.closest_wire_impact x).2| ≤ p.m_impact / 2 := by
  simp only [PlaneImpactResponse.closest_wire_impact, PlaneImpactResponse.rowPos,
    add_sub_cancel_left, add_sub_cancel_right]
  constructor
  · exact snap_within_half x p.m_pitch hp
  · have := snap_within_half (x - (cround (x / p.m_pitch) : ℚ) * p.m_pitch) p.m_impact hi
    rw [show x - ((cround (x / p.m_pitch) : ℚ) * p.m_pitch +
        (cround ((x - (cround (x / p.m_pitch) : ℚ) * p.m_pitch) / p.m_impact) : ℚ) * p.m_impact)
      = x - (cround (x / p.m_pitch) : ℚ) * p.m_pitch -
        (cround ((x - (cround (x / p.m_pitch) : ℚ) * p.m_pitch) / p.m_impact) : ℚ) * p.m_impact
      by ring]
    exact this

theorem toInt_ok (z : ℤ) (h1 : -2147483648 ≤ z) (h2 : z ≤ 2147483647) :
    toInt z = Except.ok z := by
  unfold toInt
  rw [if_pos ⟨h1, h2⟩]

theorem locate_int_eq (p : PlaneImpactResponse) (x : ℚ)
    (hp : p.m_pitch ≠ 0) (hi : p.m_impact ≠ 0)
    (h1 : -2147483648 ≤ (p.closest_wire_impact x).1 - p.nwires / 2)
    (h2 : (p.closest_wire_impact x).1 - p.nwires / 2 ≤ 2147483647)
    (h3 : -2147483648 ≤ (p.closest_wire_impact x).1)
    (h4 : (p.closest_wire_impact x).1 ≤ 2147483647)
    (h5 : -2147483648 ≤ (p.closest_wire_impact x).2 - p.nimp_per_wire / 2)
    (h6 : (p.closest_wire_impact x).2 - p.nimp_per_wire / 2 ≤ 2147483647)
    (h7 : -2147483648 ≤ (p.closest_wire_impact x).2)
    (h8 : (p.closest_wire_impact x).2 ≤ 2147483647) :
    p.closest_wire_impact_int x = Except.ok (p.closest_wire_impact x) := by
  simp only [PlaneImpactResponse.closest_wire_impact] at h1 h2 h3 h4 h5 h6 h7 h8 ⊢
  unfold PlaneImpactResponse.closest_wire_impact_int
  rw [if_neg (by rintro (h | h) <;> contradiction)]
  simp only []
  rw [toInt_ok _ (by omega) (by omega)]
  simp only []
  rw [toInt_ok _ h3 h4]
  simp only []
  rw [toInt_ok _ (by omega) (by omega)]
  simp only []
  rw [toInt_ok _ h7 h8]

/-- C17 (counterexample): on the instance built from the well-formed three-wire
tabulation (wire spacing 10) at `x = 3 * 10^10` the rounded quotient
`round (x / wire_spacing) = 3 * 10^9` lies outside the range of the `int` that
`closest_wire_impact` converts it to, so the conversion is undefined and no
pair within the two bounds is returned. -/
theorem locate_out_of_range_counterexample :
    WellFormed 1 10 threeWirePlane ∧
    construct sampleEnv threeWireField 0 twoBins 0 0 = Except.ok threeWireInstance ∧
    cround (30000000000 / threeWireInstance.m_pitch) = 3000000000 ∧
    toInt 3000000000 = Except.error Failure.undefined ∧
    threeWireInstance.closest_wire_impact_int 30000000000 = Except.error Failure.undefined :=
  ⟨threeWire_wellFormed, construct_threeWire, by decide!, by decide, by decide!⟩

/-- C17 (amended): on an instance built from a well-formed tabulation (wire
spacing ten times the impact spacing, rows of 11 entries), for every `x` with
`|x| ≤ (2^31 - 1 - centre_row) * wire_spacing` the function
`closest_wire_impact`, with every `int` conversion in range, returns a pair
`(row, j)` that is the nearest grid point:
`|x - (row - centre_row) * wire_spacing| ≤ wire_spacing / 2` and
`|x - rowPos row j| ≤ impact_spacing / 2`. -/
theorem locate_snaps_nearest_in_range (env : Collaborators) (fr : FieldResponse) (pn : ℤ)
    (tb : Binning) (g s : ℚ) (inst : PlaneImpactResponse) (pr : PlaneResponse) (n : ℕ) (P : ℚ)
    (x : ℚ)
    (hpr : vecAt fr.planes pn = Except.ok pr) (hw : WellFormed n P pr)
    (h : construct env fr pn tb g s = Except.ok inst)
    (hx : |x| ≤ ((2147483647 : ℚ) - ((inst.nwires / 2 : ℤ) : ℚ)) * inst.m_pitch) :
    inst.m_pitch = 10 * inst.m_impact ∧
    (∀ region ∈ inst.m_bywire, region.length = 11) ∧
    ∃ row j, inst.closest_wire_impact_int x = Except.ok (row, j) ∧
      inst.closest_wire_impact x = (row, j) ∧
      |x - ((row - inst.nwires / 2 : ℤ) : ℚ) * inst.m_pitch| ≤ inst.m_pitch / 2 ∧
      |x - inst.rowPos row j| ≤ inst.m_impact / 2 := by
  have hwi := construct_wellFormed env fr pn tb g s inst pr n P hpr hw h
  have hloc := wf_locate n P inst hwi x
  have hnw := wf_nwires n P inst hwi
  have hni := wf_nimp n P inst hwi
  obtain ⟨hP, hi, hp, -, hb, -⟩ := hwi
  have hgen := locate_snap_general inst x (by rw [hp]; exact hP) (by rw [hi]; linarith)
  refine ⟨by rw [hp, hi]; ring, ?_, (inst.closest_wire_impact x).1,
    (inst.closest_wire_impact x).2, ?_, rfl, hgen.1, hgen.2⟩
  · intro region hr
    rw [hb] at hr
    obtain ⟨c, -, rfl⟩ := List.mem_map.mp hr
    exact wfRow_length n c
  · rw [hnw, show (2 * (n : ℤ) + 1) / 2 = (n : ℤ) by omega, hp] at hx
    obtain ⟨hxl, hxu⟩ := abs_le.mp hx
    have hr1 : cround (x / P) ≤ 2147483647 - (n : ℤ) := by
      apply cround_le_of_lt
      have : x / P ≤ (2147483647 : ℚ) - ((n : ℤ) : ℚ) := by
        rw [div_le_iff₀ hP]
        exact hxu
      push_cast at this ⊢
      linarith
    have hr2 : -(2147483647 - (n : ℤ)) ≤ cround (x / P) := by
      apply le_cround_of_lt
      have : -((2147483647 : ℚ) - ((n : ℤ) : ℚ)) ≤ x / P := by
        rw [le_div_iff₀ hP]
        linarith
      push_cast at this ⊢
      linarith
    obtain ⟨ht1, ht2, -⟩ := snap_fine_range P x hP
    have hs1 : cround ((x - (cround (x / P) : ℚ) * P) / (P / 10)) ≤ 5 := by
      apply cround_le_of_lt
      push_cast
      linarith
    have hs2 : -5 ≤ cround ((x - (cround (x / P) : ℚ) * P) / (P / 10)) := by
      apply le_cround_of_lt
      push_cast
      linarith
    apply locate_int_eq inst x (by rw [hp]; exact ne_of_gt hP) (by rw [hi]; linarith) <;>
      rw [hloc] <;> simp only [hnw, hni] <;> omega

theorem locate_snaps_nearest_in_range_witness :
    WellFormed 1 10 threeWirePlane ∧
    construct sampleEnv threeWireField 0 twoBins 0 0 = Except.ok threeWireInstance ∧
    |(37 / 5 : ℚ)| ≤ ((2147483647 : ℚ) - ((threeWireInstance.nwires / 2 : ℤ) : ℚ))
      * threeWireInstance.m_pitch ∧
    threeWireInstance.m_pitch = 10 * threeWireInstance.m_impact ∧
    (∀ region ∈ threeWireInstance.m_bywire, region.length = 11) ∧
    ∃ row j, threeWireInstance.closest_wire_impact_int (37 / 5) = Except.ok (row, j) ∧
      threeWireInstance.closest_wire_impact (37 / 5) = (row, j) ∧
      |(37 / 5 : ℚ) - ((row - threeWireInstance.nwires / 2 : ℤ) : ℚ) * threeWireInstance.m_pitch|
        ≤ threeWireInstance.m_pitch / 2 ∧
      |(37 / 5 : ℚ) - threeWireInstance.rowPos row j| ≤ threeWireInstance.m_impact / 2 :=
  ⟨threeWire_wellFormed, construct_threeWire, by decide!,
    locate_snaps_nearest_in_range sampleEnv threeWireField 0 twoBins 0 0 threeWireInstance
      threeWirePlane 1 10 (37 / 5) threeWire_plane threeWire_wellFormed construct_threeWire
      (by decide!)⟩

/-- C18: for a constructed instance with a positive wire spacing that
satisfies the tabulation invariants
`half_extent = (centre_row + 1/2) * wire_spacing` and
`row_midpoint * impact_spacing = wire_spacing / 2`, and every in-domain `x`
whose located impact index `j` is interior to its row, the sign-test quantity
`half_extent + x - row * wire_spacing - j * impact_spacing` equals `x` minus
the row-frame position of the snapped entry; the responses `previous`,
`snapped` and `next` at positions `j - 1`, `j` and `j + 1` of the row exist,
and `bounded x` returns `(snapped, next)` exactly when `x` lies strictly above
that position and `(previous, snapped)` otherwise. -/
theorem sign_test_is_side_of_snapped (env : Collaborators) (fr : FieldResponse) (pn : ℤ)
    (tb : Binning) (g s : ℚ) (p : PlaneImpactResponse) (x : ℚ) (region : List ℤ)
    (h : construct env fr pn tb g s = Except.ok p)
    (_hpos : 0 < p.m_pitch)
    (hhalf : p.m_half_extent = (((p.nwires / 2 : ℤ) : ℚ) + 1 / 2) * p.m_pitch)
    (hmid : ((p.nimp_per_wire / 2 : ℤ) : ℚ) * p.m_impact = p.m_pitch / 2)
    (hlo : -p.m_half_extent ≤ x) (hhi : x ≤ p.m_half_extent)
    (hrow : vecAt p.m_bywire (p.closest_wire_impact x).1 = Except.ok region)
    (hj0 : 0 < (p.closest_wire_impact x).2)
    (hj1 : (p.closest_wire_impact x).2 < (region.length : ℤ) - 1) :
    p.m_half_extent + x - ((p.closest_wire_impact x).1 : ℚ) * p.m_pitch
        - ((p.closest_wire_impact x).2 : ℚ) * p.m_impact
      = x - p.rowPos (p.closest_wire_impact x).1 (p.closest_wire_impact x).2 ∧
    ∃ previous snapped next,
      p.entry region ((p.closest_wire_impact x).2 - 1) = Except.ok previous ∧
      p.entry region (p.closest_wire_impact x).2 = Except.ok snapped ∧
      p.entry region ((p.closest_wire_impact x).2 + 1) = Except.ok next ∧
      (p.rowPos (p.closest_wire_impact x).1 (p.closest_wire_impact x).2 < x →
        p.bounded x = Except.ok (some snapped, some next)) ∧
      (x ≤ p.rowPos (p.closest_wire_impact x).1 (p.closest_wire_impact x).2 →
        p.bounded x = Except.ok (some previous, some snapped)) := by
  have hsign : p.m_half_extent + x - ((p.closest_wire_impact x).1 : ℚ) * p.m_pitch
        - ((p.closest_wire_impact x).2 : ℚ) * p.m_impact
      = x - p.rowPos (p.closest_wire_impact x).1 (p.closest_wire_impact x).2 := by
    simp only [PlaneImpactResponse.rowPos]
    rw [hhalf]
    push_cast
    linear_combination (-1 : ℚ) * hmid
  have hd : ¬ (x < -p.m_half_extent ∨ x > p.m_half_extent) := by
    rintro (h | h) <;> linarith
  have hbd : p.bounded x =
      if p.m_half_extent + x - ((p.closest_wire_impact x).1 : ℚ) * p.m_pitch
          - ((p.closest_wire_impact x).2 : ℚ) * p.m_impact > 0
      then p.pairAt region (p.closest_wire_impact x).2 ((p.closest_wire_impact x).2 + 1)
      else p.pairAt region ((p.closest_wire_impact x).2 - 1) (p.closest_wire_impact x).2 := by
    unfold PlaneImpactResponse.bounded
    rw [if_neg hd]
    simp only [hrow]
    rw [if_neg (by omega), if_neg (by omega)]
  have hv := construct_validIndices env fr pn tb g s p h
  have hmem := vecAt_mem _ _ _ hrow
  obtain ⟨previous, hprev⟩ := entry_of_valid p hv region hmem
    ((p.closest_wire_impact x).2 - 1) (by omega) (by omega)
  obtain ⟨snapped, hsnap⟩ := entry_of_valid p hv region hmem
    (p.closest_wire_impact x).2 (by omega) (by omega)
  obtain ⟨next, hnext⟩ := entry_of_valid p hv region hmem
    ((p.closest_wire_impact x).2 + 1) (by omega) (by omega)
  refine ⟨hsign, previous, snapped, next, hprev, hsnap, hnext, ?_, ?_⟩
  · intro hx
    rw [hbd, hsign, if_pos (by linarith)]
    exact pairAt_of_entry p region _ _ snapped next hsnap hnext
  · intro hx
    rw [hbd, hsign, if_neg (by linarith)]
    exact pairAt_of_entry p region _ _ previous snapped hprev hsnap

theorem sign_test_is_side_of_snapped_witness :
    threeWireInstance.m_half_extent + 37 / 5
        - ((threeWireInstance.closest_wire_impact (37 / 5)).1 : ℚ) * threeWireInstance.m_pitch
        - ((threeWireInstance.closest_wire_impact (37 / 5)).2 : ℚ) * threeWireInstance.m_impact
      = 37 / 5 - threeWireInstance.rowPos (threeWireInstance.closest_wire_impact (37 / 5)).1
          (threeWireInstance.closest_wire_impact (37 / 5)).2 ∧
    ∃ previous snapped next,
      threeWireInstance.entry [12, 13, 14, 15, 16, 17, 4, 3, 2, 1, 0]
        ((threeWireInstance.closest_wire_impact (37 / 5)).2 - 1) = Except.ok previous ∧
      threeWireInstance.entry [12, 13, 14, 15, 16, 17, 4, 3, 2, 1, 0]
        (threeWireInstance.closest_wire_impact (37 / 5)).2 = Except.ok snapped ∧
      threeWireInstance.entry [12, 13, 14, 15, 16, 17, 4, 3, 2, 1, 0]
        ((threeWireInstance.closest_wire_impact (37 / 5)).2 + 1) = Except.ok next ∧
      (threeWireInstance.rowPos (threeWireInstance.closest_wire_impact (37 / 5)).1
          (threeWireInstance.closest_wire_impact (37 / 5)).2 < 37 / 5 →
        threeWireInstance.bounded (37 / 5) = Except.ok (some snapped, some next)) ∧
      ((37 / 5 : ℚ) ≤ threeWireInstance.rowPos (threeWireInstance.closest_wire_impact (37 / 5)).1
          (threeWireInstance.closest_wire_impact (37 / 5)).2 →
        threeWireInstance.bounded (37 / 5) = Except.ok (some previous, some snapped)) :=
  sign_test_is_side_of_snapped sampleEnv threeWireField 0 twoBins 0 0 threeWireInstance (37 / 5)
    [12, 13, 14, 15, 16, 17, 4, 3, 2, 1, 0] construct_threeWire
    (by decide!) (by decide!) (by decide!) (by decide!) (by decide!) (by decide!) (by decide!)
    (by decide!)

/-- C19: for every constructed instance, every entry `i` stored in any row of
`m_bywire` satisfies `0 ≤ i < number of responses`; hence whenever `closest`
reaches the index `irind = m_bywire[row][impact_index]`, the guard
`irind < 0 || irind > m_ir.size()` of its last branch is false. -/
theorem bywire_entries_valid (env : Collaborators) (fr : FieldResponse) (pn : ℤ)
    (tb : Binning) (g s : ℚ) (inst : PlaneImpactResponse)
    (h : construct env fr pn tb g s = Except.ok inst) :
    (∀ region ∈ inst.m_bywire, ∀ i ∈ region, 0 ≤ i ∧ i < (inst.m_ir.length : ℤ)) ∧
    (∀ (x : ℚ) (region : List ℤ) (irind : ℤ),
      vecAt inst.m_bywire (inst.closest_wire_impact x).1 = Except.ok region →
      vecAt region (inst.closest_wire_impact x).2 = Except.ok irind →
      ¬ (irind < 0 ∨ irind > (inst.m_ir.length : ℤ)) ∧
        ∃ a, vecAt inst.m_ir irind = Except.ok a) := by
  have hv := construct_validIndices env fr pn tb g s inst h
  refine ⟨hv, ?_⟩
  intro x region irind hrow hent
  have hm := hv region (vecAt_mem _ _ _ hrow) irind (vecAt_mem _ _ _ hent)
  exact ⟨by rintro (h1 | h1) <;> omega, vecAt_of_lt _ _ hm.1 hm.2⟩

theorem bywire_entries_valid_witness :
    construct sampleEnv threeWireField 0 twoBins 0 0 = Except.ok threeWireInstance ∧
    (∀ region ∈ threeWireInstance.m_bywire, ∀ i ∈ region,
      0 ≤ i ∧ i < (threeWireInstance.m_ir.length : ℤ)) ∧
    (∀ (x : ℚ) (region : List ℤ) (irind : ℤ),
      vecAt threeWireInstance.m_bywire (threeWireInstance.closest_wire_impact x).1
        = Except.ok region →
      vecAt region (threeWireInstance.closest_wire_impact x).2 = Except.ok irind →
      ¬ (irind < 0 ∨ irind > (threeWireInstance.m_ir.length : ℤ)) ∧
        ∃ a, vecAt threeWireInstance.m_ir irind = Except.ok a) :=
  ⟨construct_threeWire,
    bywire_entries_valid sampleEnv threeWireField 0 twoBins 0 0 threeWireInstance
      construct_threeWire⟩

/-- C20: on an instance built from a well-formed tabulation, for every `x`
with `|x| < half_extent`, `closest_wire_impact x` returns a row in `[0, 2 n]`
and an impact index in `[0, 10]`, both inside the populated `m_bywire` (every
row has 11 entries), so `closest x` is non-null. -/
theorem closest_nonnull_inside (env : Collaborators) (fr : FieldResponse) (pn : ℤ)
    (tb : Binning) (g s : ℚ) (inst : PlaneImpactResponse) (pr : PlaneResponse) (n : ℕ) (P : ℚ)
    (x : ℚ)
    (hpr : vecAt fr.planes pn = Except.ok pr) (hw : WellFormed n P pr)
    (h : construct env fr pn tb g s = Except.ok inst)
    (hx : |x| < inst.m_half_extent) :
    0 ≤ (inst.closest_wire_impact x).1 ∧ (inst.closest_wire_impact x).1 ≤ 2 * (n : ℤ) ∧
    0 ≤ (inst.closest_wire_impact x).2 ∧ (inst.closest_wire_impact x).2 ≤ 10 ∧
    inst.m_bywire.length = 2 * n + 1 ∧
    (∀ region ∈ inst.m_bywire, region.length = 11) ∧
    ∃ a, inst.closest x = Except.ok (some a) := by
  have hwi := construct_wellFormed env fr pn tb g s inst pr n P hpr hw h
  have hloc := wf_locate n P inst hwi x
  obtain ⟨hP, hi, hp, hh, hb, -⟩ := hwi
  have hne : P ≠ 0 := ne_of_gt hP
  obtain ⟨hxlo, hxhi⟩ := abs_lt.mp hx
  rw [hh] at hxlo hxhi
  have hu1 : x / P < (((n : ℤ) : ℚ)) + 1 / 2 := by
    rw [div_lt_iff₀ hP]; push_cast; linarith
  have hu0 : (((-(n : ℤ) : ℤ)) : ℚ) - 1 / 2 < x / P := by
    rw [lt_div_iff₀ hP]; push_cast; linarith
  have hr1 := cround_le_of_lt (x / P) n hu1
  have hr0 := le_cround_of_lt (x / P) (-(n : ℤ)) hu0
  obtain ⟨ht0, ht1, -⟩ := snap_fine_range P x hP
  have hj0 : -5 ≤ cround ((x - (cround (x / P) : ℚ) * P) / (P / 10)) :=
    le_cround_of_lt _ (-5) (by push_cast; linarith)
  have hj1 : cround ((x - (cround (x / P) : ℚ) * P) / (P / 10)) ≤ 5 :=
    cround_le_of_lt _ 5 (by push_cast; linarith)
  obtain ⟨c, hc⟩ : ∃ c : ℕ, (c : ℤ) = (n : ℤ) + cround (x / P) :=
    ⟨((n : ℤ) + cround (x / P)).toNat, by omega⟩
  have hwi2 := construct_wellFormed env fr pn tb g s inst pr n P hpr hw h
  obtain ⟨a, ha, -⟩ := wf_closest n P inst hwi2 x (by rw [hh]; linarith) (by rw [hh]; linarith)
    c hc (by omega)
  rw [hloc]
  refine ⟨by simp only; omega, by simp only; omega, by simp only; omega, by simp only; omega,
    by rw [hb]; simp, ?_, a, ha⟩
  intro region hr
  rw [hb] at hr
  obtain ⟨c2, -, rfl⟩ := List.mem_map.mp hr
  exact wfRow_length n c2

theorem closest_nonnull_inside_witness :
    WellFormed 1 10 threeWirePlane ∧
    construct sampleEnv threeWireField 0 twoBins 0 0 = Except.ok threeWireInstance ∧
    |(-149 / 10 : ℚ)| < threeWireInstance.m_half_extent ∧
    0 ≤ (threeWireInstance.closest_wire_impact (-149 / 10)).1 ∧
    (threeWireInstance.closest_wire_impact (-149 / 10)).1 ≤ 2 * ((1 : ℕ) : ℤ) ∧
    0 ≤ (threeWireInstance.closest_wire_impact (-149 / 10)).2 ∧
    (threeWireInstance.closest_wire_impact (-149 / 10)).2 ≤ 10 ∧
    threeWireInstance.m_bywire.length = 2 * 1 + 1 ∧
    (∀ region ∈ threeWireInstance.m_bywire, region.length = 11) ∧
    ∃ a, threeWireInstance.closest (-149 / 10) = Except.ok (some a) :=
  ⟨threeWire_wellFormed, construct_threeWire, by decide!,
    closest_nonnull_inside sampleEnv threeWireField 0 twoBins 0 0 threeWireInstance
      threeWirePlane 1 10 (-149 / 10) threeWire_plane threeWire_wellFormed construct_threeWire
      (by decide!)⟩

theorem tracks_address {Data : Type} (src : ℕ → Data) (s : Fanout Data) (a : ℤ) :
    (s.address a).Tracks src a s.pulled := by
  simp [Fanout.Tracks, Fanout.address]

theorem tracks_address_other {Data : Type} (src : ℕ → Data) (s : Fanout Data) (a b : ℤ)
    (f : ℕ) (hab : b ≠ a) (ht : s.Tracks src a f) : (s.address b).Tracks src a f := by
  have hab2 : ¬ a = b := fun hc => hab hc.symm
  simpa [Fanout.Tracks, Fanout.address, hab2] using ht

theorem range_succ_map {Data : Type} (src : ℕ → Data) (f p : ℕ) (h : f ≤ p) :
    (List.range (p + 1 - f)).map (fun i => src (f + i))
      = (List.range (p - f)).map (fun i => src (f + i)) ++ [src p] := by
  rw [show p + 1 - f = (p - f) + 1 by omega, List.range_succ, List.map_append]
  simp only [List.map_cons, List.map_nil]
  rw [show f + (p - f) = p by omega]

theorem call_empty {Data : Type} (src : ℕ → Data) (s : Fanout Data) (b : ℤ)
    (hq : (s.m_fan b).getD [] = []) :
    s.call src b = Except.ok (src s.pulled,
      ⟨fun a => if a = b then some [] else (s.m_fan a).map (fun q => q ++ [src s.pulled]),
        s.pulled + 1⟩) := by
  unfold Fanout.call
  simp only [hq, List.length_nil, if_true, Option.map_some', List.nil_append]
  congr 3
  funext a
  by_cases hab : a = b <;> simp [hab]

theorem call_nonempty {Data : Type} (src : ℕ → Data) (s : Fanout Data) (b : ℤ)
    (d : Data) (rest : List Data) (hq : (s.m_fan b).getD [] = d :: rest) :
    s.call src b = Except.ok (d,
      ⟨fun a => if a = b then some rest else s.m_fan a, s.pulled⟩) := by
  unfold Fanout.call
  simp only [hq, List.length_cons, Nat.add_one_ne_zero, if_false, if_true]
  congr 3
  funext a
  by_cases hab : a = b <;> simp [hab]

theorem tracks_call_other {Data : Type} (src : ℕ → Data) (s : Fanout Data) (a b : ℤ)
    (f : ℕ) (hab : b ≠ a) (ht : s.Tracks src a f) :
    ∃ dat s2, s.call src b = Except.ok (dat, s2) ∧ s2.Tracks src a f := by
  have hab2 : ¬ a = b := fun hc => hab hc.symm
  obtain ⟨hf, hq⟩ := ht
  cases hb : (s.m_fan b).getD [] with
  | nil =>
    refine ⟨_, _, call_empty src s b hb, ?_⟩
    refine ⟨by simp only; omega, ?_⟩
    simp only [hab2, if_false, hq, Option.map_some']
    rw [range_succ_map src f s.pulled hf]
  | cons d rest =>
    refine ⟨_, _, call_nonempty src s b d rest hb, ?_⟩
    exact ⟨hf, by simp only [hab2, if_false, hq]⟩

theorem tracks_call_self {Data : Type} (src : ℕ → Data) (s : Fanout Data) (a : ℤ)
    (f : ℕ) (ht : s.Tracks src a f) :
    ∃ s2, s.call src a = Except.ok (src f, s2) ∧ s2.Tracks src a (f + 1) := by
  obtain ⟨hf, hq⟩ := ht
  rcases Nat.eq_or_lt_of_le hf with he | hl
  · have hq2 : (s.m_fan a).getD [] = [] := by
      rw [hq, show s.pulled - f = 0 by omega]; rfl
    refine ⟨_, by rw [call_empty src s a hq2, he], ?_⟩
    refine ⟨by simp only; omega, ?_⟩
    simp only [if_true]
    rw [show s.pulled + 1 - (f + 1) = 0 by omega]
    rfl
  · obtain ⟨d, hd⟩ : ∃ d, s.pulled - f = d + 1 := ⟨s.pulled - f - 1, by omega⟩
    have hq2 : (s.m_fan a).getD []
        = src f :: (List.range d).map (fun i => src (f + 1 + i)) := by
      rw [hq, hd, List.range_succ_eq_map]
      simp only [List.map_cons, List.map_map, add_zero, Option.getD_some]
      congr 1
      apply List.map_congr_left
      intro i _
      simp only [Function.comp_apply]
      congr 1
      omega
    refine ⟨_, call_nonempty src s a _ _ hq2, ?_⟩
    refine ⟨by simp only; omega, ?_⟩
    simp only [if_true]
    rw [show s.pulled - (f + 1) = d by omega]

theorem tracks_call_fresh {Data : Type} (src : ℕ → Data) (s : Fanout Data) (a : ℤ)
    (hfresh : s.m_fan a = none) :
    ∃ s2, s.call src a = Except.ok (src s.pulled, s2) ∧ s2.Tracks src a (s.pulled + 1) := by
  have hq2 : (s.m_fan a).getD [] = [] := by rw [hfresh]; rfl
  refine ⟨_, call_empty src s a hq2, ?_⟩
  refine ⟨le_refl _, ?_⟩
  simp only [if_true]
  rw [show s.pulled + 1 - (s.pulled + 1) = 0 by omega]
  rfl

theorem run_tracks {Data : Type} (src : ℕ → Data) (a : ℤ) (ops : List FanoutOp)
    (hno : FanoutOp.address a ∉ ops) (s : Fanout Data) (f : ℕ) (ht : s.Tracks src a f) :
    ∃ outs, Fanout.run src s ops = Except.ok outs ∧
      readsOf a outs = (List.range (countCalls a ops)).map (fun k => src (f + k)) := by
  induction ops generalizing s f with
  | nil => exact ⟨[], rfl, by simp [readsOf, countCalls]⟩
  | cons op rest ih =>
    have hno2 : FanoutOp.address a ∉ rest := fun hc => hno (List.mem_cons_of_mem _ hc)
    cases op with
    | address b =>
      have hba : b ≠ a := by
        intro hc
        apply hno
        rw [hc]
        exact List.mem_cons_self _ _
      obtain ⟨outs, h1, h2⟩ := ih hno2 (s.address b) f (tracks_address_other src s a b f hba ht)
      refine ⟨outs, by simpa [Fanout.run] using h1, ?_⟩
      rw [h2]
      simp [countCalls]
    | call b =>
      by_cases hba : b = a
      · subst hba
        obtain ⟨s2, hc1, hc2⟩ := tracks_call_self src s b f ht
        obtain ⟨outs, h1, h2⟩ := ih hno2 s2 (f + 1) hc2
        refine ⟨(b, src f) :: outs, by simp [Fanout.run, hc1, h1], ?_⟩
        simp only [readsOf, countCalls] at h2 ⊢
        rw [List.filter_cons_of_pos (by simp), List.filter_cons_of_pos (by simp)]
        simp only [List.map_cons, List.length_cons, List.range_succ_eq_map, List.map_map,
          add_zero]
        rw [h2]
        congr 1
        apply List.map_congr_left
        intro k _
        simp only [Function.comp_apply]
        congr 1
        omega
      · obtain ⟨dat, s2, hc1, hc2⟩ := tracks_call_other src s a b f hba ht
        obtain ⟨outs, h1, h2⟩ := ih hno2 s2 f hc2
        refine ⟨(b, dat) :: outs, by simp [Fanout.run, hc1, h1], ?_⟩
        have hne : ¬ (FanoutOp.call b = FanoutOp.call a) := by
          intro hc; cases hc; exact hba rfl
        simp only [readsOf, countCalls] at h2 ⊢
        rw [List.filter_cons_of_neg (by simpa using hba),
          List.filter_cons_of_neg (by simpa using hne)]
        exact h2

theorem run_register_first {Data : Type} (src : ℕ → Data) (regs : List ℤ)
    (calls : List FanoutOp) (s : Fanout Data) :
    Fanout.run src s (regs.map FanoutOp.address ++ calls)
      = Fanout.run src (regs.foldl Fanout.address s) calls := by
  induction regs generalizing s with
  | nil => rfl
  | cons b rest ih =>
    simp only [List.map_cons, List.cons_append, Fanout.run, List.foldl_cons]
    exact ih (s.address b)

theorem foldl_address_tracks {Data : Type} (src : ℕ → Data) (a : ℤ) (regs : List ℤ)
    (s : Fanout Data) (h : a ∈ regs ∨ s.Tracks src a s.pulled) :
    (regs.foldl Fanout.address s).Tracks src a s.pulled := by
  induction regs generalizing s with
  | nil =>
    rcases h with h | h
    · cases h
    · exact h
  | cons b rest ih =>
    simp only [List.foldl_cons]
    have hp : (s.address b).pulled = s.pulled := rfl
    rw [← hp]
    apply ih
    by_cases hba : b = a
    · right
      rw [hba]
      exact tracks_address src s a
    · rcases h with h | h
      · rcases List.mem_cons.mp h with h2 | h2
        · exact absurd h2.symm hba
        · exact Or.inl h2
      · right
        exact tracks_address_other src s a b s.pulled hba h

/-- C14: for every address `a` that is registered once (by `address a` or by
its first read) and never registered again, if `m = pulled` values had been
pulled from the connected source when `a` was registered, the successive reads
on `a` return the source values number `m + 1, m + 2, ...` (`src m`,
`src (m + 1)`, ... counting from 0), whatever calls on other addresses are
interleaved; in particular, when all addresses are registered before the first
read, every address receives the source sequence from its first value on. -/
theorem fanout_delivers_in_order {Data : Type} (src : ℕ → Data) (s : Fanout Data) (a : ℤ)
    (ops : List FanoutOp) (hno : FanoutOp.address a ∉ ops) :
    (∃ outs, Fanout.run src s (FanoutOp.address a :: ops) = Except.ok outs ∧
      readsOf a outs = (List.range (countCalls a ops)).map (fun k => src (s.pulled + k))) ∧
    (s.m_fan a = none →
      ∃ outs, Fanout.run src s (FanoutOp.call a :: ops) = Except.ok outs ∧
        readsOf a outs
          = (List.range (countCalls a ops + 1)).map (fun k => src (s.pulled + k))) ∧
    (∀ regs : List ℤ, a ∈ regs →
      ∃ outs, Fanout.run src (Fanout.empty Data) (regs.map FanoutOp.address ++ ops)
          = Except.ok outs ∧
        readsOf a outs = (List.range (countCalls a ops)).map src) := by
  refine ⟨?_, ?_, ?_⟩
  · obtain ⟨outs, h1, h2⟩ := run_tracks src a ops hno (s.address a) s.pulled
      (tracks_address src s a)
    exact ⟨outs, by simpa [Fanout.run] using h1, h2⟩
  · intro hfresh
    obtain ⟨s2, hc1, hc2⟩ := tracks_call_fresh src s a hfresh
    obtain ⟨outs, h1, h2⟩ := run_tracks src a ops hno s2 (s.pulled + 1) hc2
    refine ⟨(a, src s.pulled) :: outs, by simp [Fanout.run, hc1, h1], ?_⟩
    simp only [readsOf] at h2 ⊢
    rw [List.filter_cons_of_pos (by simp)]
    simp only [List.map_cons, List.range_succ_eq_map, List.map_map, add_zero]
    rw [h2]
    congr 1
    apply List.map_congr_left
    intro k _
    simp only [Function.comp_apply]
    congr 1
    omega
  · intro regs hmem
    have ht := foldl_address_tracks src a regs (Fanout.empty Data) (Or.inl hmem)
    obtain ⟨outs, h1, h2⟩ := run_tracks src a ops hno _ _ ht
    refine ⟨outs, by rw [run_register_first]; exact h1, ?_⟩
    rw [h2]
    apply List.map_congr_left
    intro k _
    simp [Fanout.empty]

theorem fanout_delivers_in_order_witness :
    FanoutOp.address 1 ∉
      [FanoutOp.address 2, FanoutOp.call 1, FanoutOp.call 2, FanoutOp.call 1, FanoutOp.call 3] ∧
    (∃ outs, Fanout.run countingSource (Fanout.empty ℕ) (FanoutOp.address 1 ::
        [FanoutOp.address 2, FanoutOp.call 1, FanoutOp.call 2, FanoutOp.call 1, FanoutOp.call 3])
        = Except.ok outs ∧
      readsOf 1 outs = (List.range (countCalls 1
        [FanoutOp.address 2, FanoutOp.call 1, FanoutOp.call 2, FanoutOp.call 1,
          FanoutOp.call 3])).map (fun k => countingSource ((Fanout.empty ℕ).pulled + k))) ∧
    ((Fanout.empty ℕ).m_fan 1 = none →
      ∃ outs, Fanout.run countingSource (Fanout.empty ℕ) (FanoutOp.call 1 ::
          [FanoutOp.address 2, FanoutOp.call 1, FanoutOp.call 2, FanoutOp.call 1,
            FanoutOp.call 3]) = Except.ok outs ∧
        readsOf 1 outs = (List.range (countCalls 1
          [FanoutOp.address 2, FanoutOp.call 1, FanoutOp.call 2, FanoutOp.call 1,
            FanoutOp.call 3] + 1)).map (fun k => countingSource ((Fanout.empty ℕ).pulled + k))) ∧
    (∀ regs : List ℤ, (1 : ℤ) ∈ regs →
      ∃ outs, Fanout.run countingSource (Fanout.empty ℕ) (regs.map FanoutOp.address ++
          [FanoutOp.address 2, FanoutOp.call 1, FanoutOp.call 2, FanoutOp.call 1,
            FanoutOp.call 3]) = Except.ok outs ∧
        readsOf 1 outs = (List.range (countCalls 1
          [FanoutOp.address 2, FanoutOp.call 1, FanoutOp.call 2, FanoutOp.call 1,
            FanoutOp.call 3])).map countingSource) :=
  ⟨by decide,
    fanout_delivers_in_order countingSource (Fanout.empty ℕ) 1
      [FanoutOp.address 2, FanoutOp.call 1, FanoutOp.call 2, FanoutOp.call 1, FanoutOp.call 3]
      (by decide)⟩

theorem fanout_trace_example :
    Fanout.run countingSource (Fanout.empty ℕ)
      [FanoutOp.address 1, FanoutOp.address 2, FanoutOp.call 1, FanoutOp.call 1,
        FanoutOp.call 2, FanoutOp.call 3, FanoutOp.call 1, FanoutOp.call 2, FanoutOp.call 3]
      = Except.ok [(1, 100), (1, 101), (2, 100), (3, 102), (1, 102), (2, 101), (3, 103)] := by
  decide

theorem getElem?_middle_ne {α : Type} (pre post : List α) (a b : α) (i : ℕ)
    (hi : i ≠ pre.length) : (pre ++ b :: post)[i]? = (pre ++ a :: post)[i]? := by
  rcases Nat.lt_or_ge i pre.length with hlt | hge
  · rw [List.getElem?_append_left hlt, List.getElem?_append_left hlt]
  · rw [List.getElem?_append_right hge, List.getElem?_append_right hge]
    obtain ⟨d, hd⟩ : ∃ d, i - pre.length = d + 1 := ⟨i - pre.length - 1, by omega⟩
    rw [hd]
    rfl

theorem getElem?_middle {α : Type} (pre post : List α) (b : α) :
    (pre ++ b :: post)[pre.length]? = some b := by
  rw [List.getElem?_append_right (le_refl _)]
  simp

theorem mirror_lists {α : Type} (A B : List α) (m : ℕ) (hA : A.length = m)
    (hB : B.length = m) (hm : 1 ≤ m) :
    (B ++ A.reverse.tail).length = 2 * m - 1 ∧
    (A ++ B.reverse.tail).reverse.length = 2 * m - 1 ∧
    (∀ i, i ≠ m - 1 → (B ++ A.reverse.tail)[i]? = (A ++ B.reverse.tail).reverse[i]?) ∧
    (B ++ A.reverse.tail)[m - 1]? = B.getLast? ∧
    (A ++ B.reverse.tail).reverse[m - 1]? = A.getLast? := by
  rcases List.eq_nil_or_concat A with hA0 | ⟨A1, a, rfl⟩
  · subst hA0; simp at hA; omega
  rcases List.eq_nil_or_concat B with hB0 | ⟨B1, b, rfl⟩
  · subst hB0; simp at hB; omega
  have hA1 : A1.length = m - 1 := by simp at hA; omega
  have hB1 : B1.length = m - 1 := by simp at hB; omega
  simp only [List.concat_eq_append] at hA hB ⊢
  have eX : B1 ++ [b] ++ (A1 ++ [a]).reverse.tail = B1 ++ b :: A1.reverse := by simp
  have eY : (A1 ++ [a] ++ (B1 ++ [b]).reverse.tail).reverse = B1 ++ a :: A1.reverse := by simp
  rw [eX, eY]
  refine ⟨by simp; omega, by simp; omega, ?_, ?_, ?_⟩
  · intro i hi
    exact getElem?_middle_ne B1 A1.reverse a b i (by omega)
  · rw [← hB1, getElem?_middle]
    simp
  · rw [← hB1, getElem?_middle]
    simp

theorem construct_bywire_groups (env : Collaborators) (fr : FieldResponse) (pn : ℤ)
    (tb : Binning) (g s : ℚ) (inst : PlaneImpactResponse) (pr : PlaneResponse)
    (hpr : vecAt fr.planes pn = Except.ok pr)
    (h : construct env fr pn tb g s = Except.ok inst) :
    inst.m_bywire = (relWires (pr.paths.length / 6 / 2)).map
      (fun k => wireGroup pr k ++ (wireGroup pr (-k)).reverse.tail) ∧
    wireGroup pr 0 ≠ [] := by
  obtain ⟨pr2, p0, p1, plast, back, w2i, h1, -, -, -, -, h6, h7, -⟩ :=
    construct_inv env fr pn tb g s inst h
  rw [hpr] at h1
  cases h1
  obtain ⟨hw, -⟩ := pathLoop_inv _ _ _ _ _ _ _ _ _ _ _ _ _ _ h6
  have hrows := symLoop_inv _ _ _ _ h7
  simp only [List.nil_append] at hrows
  have hgrp : ∀ w, w2i w = wireGroup pr w := by
    intro w
    rw [hw, collectInd_eq_group]
    rfl
  refine ⟨by rw [hrows]; simp only [hgrp], ?_⟩
  have hmem : (0 : ℤ) ∈ relWires (pr.paths.length / 6 / 2) := by
    simp only [relWires, List.mem_map, List.mem_range]
    exact ⟨pr.paths.length / 6 / 2, by omega, by simp⟩
  have hrow0 : ∃ region, symRow w2i 0 = Except.ok region := by
    by_contra hc
    push_neg at hc
    have : ∀ ks acc, (0 : ℤ) ∈ ks → ∀ rows, symLoop w2i ks acc ≠ Except.ok rows := by
      intro ks
      induction ks with
      | nil => intro acc hk; cases hk
      | cons k rest ih =>
        intro acc hk rows hrun
        simp only [symLoop] at hrun
        split at hrun
        · cases hrun
        · rename_i indices hi
          rcases List.mem_cons.mp hk with h0 | h0
          · rw [← h0] at hi
            exact hc indices hi
          · exact ih _ h0 rows hrun
    exact this _ _ hmem _ h7
  obtain ⟨region, hreg⟩ := hrow0
  have := (symRow_inv _ _ _ hreg).2
  rw [neg_zero, hgrp] at this
  exact this

/-- C21: mirror structure of `m_bywire`. For every row index `r` (relative wire
offset `k = r - h`) whose groups `G(k)` and `G(-k)` both have the same length
`m ≥ 1`, the row for `-k` and the reverse of the row for `k` both have length
`2 m - 1` and agree at every position except the middle one, position `m - 1`,
which holds the last element of `G(-k)` in the former and the last element of
`G(k)` in the latter; and the centre row (`k = 0`) is a palindrome. -/
theorem bywire_mirror (env : Collaborators) (fr : FieldResponse) (pn : ℤ)
    (tb : Binning) (g s : ℚ) (inst : PlaneImpactResponse) (pr : PlaneResponse) (r m : ℕ)
    (hpr : vecAt fr.planes pn = Except.ok pr)
    (h : construct env fr pn tb g s = Except.ok inst)
    (hr : r < 2 * (pr.paths.length / 6 / 2) + 1)
    (hk : (wireGroup pr ((r : ℤ) - ((pr.paths.length / 6 / 2 : ℕ) : ℤ))).length = m)
    (hmk : (wireGroup pr (-((r : ℤ) - ((pr.paths.length / 6 / 2 : ℕ) : ℤ)))).length = m)
    (hm : 1 ≤ m) :
    (∃ rowk rowmk,
      inst.m_bywire[r]? = some rowk ∧
      inst.m_bywire[2 * (pr.paths.length / 6 / 2) - r]? = some rowmk ∧
      rowmk.length = 2 * m - 1 ∧ rowk.reverse.length = 2 * m - 1 ∧
      (∀ i, i ≠ m - 1 → rowmk[i]? = rowk.reverse[i]?) ∧
      rowmk[m - 1]?
        = (wireGroup pr (-((r : ℤ) - ((pr.paths.length / 6 / 2 : ℕ) : ℤ)))).getLast? ∧
      rowk.reverse[m - 1]?
        = (wireGroup pr ((r : ℤ) - ((pr.paths.length / 6 / 2 : ℕ) : ℤ))).getLast?) ∧
    (∃ row, inst.m_bywire[pr.paths.length / 6 / 2]? = some row ∧ row.reverse = row) := by
  obtain ⟨hrows, hne⟩ := construct_bywire_groups env fr pn tb g s inst pr hpr h
  have hget : ∀ c, c < 2 * (pr.paths.length / 6 / 2) + 1 →
      inst.m_bywire[c]? = some
        (wireGroup pr ((c : ℤ) - ((pr.paths.length / 6 / 2 : ℕ) : ℤ)) ++
          (wireGroup pr (-((c : ℤ) - ((pr.paths.length / 6 / 2 : ℕ) : ℤ)))).reverse.tail) := by
    intro c hc
    rw [hrows, relWires, List.map_map, List.getElem?_map, List.getElem?_range hc]
    rfl
  constructor
  · have hmir := hget (2 * (pr.paths.length / 6 / 2) - r) (by omega)
    have e1 : (((2 * (pr.paths.length / 6 / 2) - r : ℕ) : ℤ))
        - ((pr.paths.length / 6 / 2 : ℕ) : ℤ)
        = -((r : ℤ) - ((pr.paths.length / 6 / 2 : ℕ) : ℤ)) := by omega
    rw [e1, neg_neg] at hmir
    obtain ⟨m1, m2, m3, m4, m5⟩ := mirror_lists
      (wireGroup pr ((r : ℤ) - ((pr.paths.length / 6 / 2 : ℕ) : ℤ)))
      (wireGroup pr (-((r : ℤ) - ((pr.paths.length / 6 / 2 : ℕ) : ℤ)))) m hk hmk hm
    exact ⟨_, _, hget r hr, hmir, m1, m2, m3, m4, m5⟩
  · have hc := hget (pr.paths.length / 6 / 2) (by omega)
    rw [sub_self, neg_zero] at hc
    refine ⟨_, hc, ?_⟩
    rcases List.eq_nil_or_concat (wireGroup pr 0) with h0 | ⟨A1, a, hA⟩
    · exact absurd h0 hne
    · rw [hA]
      simp

theorem bywire_mirror_witness :
    construct sampleEnv threeWireField 0 twoBins 0 0 = Except.ok threeWireInstance ∧
    (wireGroup threeWirePlane (((2 : ℕ) : ℤ)
      - ((threeWirePlane.paths.length / 6 / 2 : ℕ) : ℤ))).length = 6 ∧
    (wireGroup threeWirePlane (-(((2 : ℕ) : ℤ)
      - ((threeWirePlane.paths.length / 6 / 2 : ℕ) : ℤ)))).length = 6 ∧
    (∃ rowk rowmk,
      threeWireInstance.m_bywire[2]? = some rowk ∧
      threeWireInstance.m_bywire[2 * (threeWirePlane.paths.length / 6 / 2) - 2]? = some rowmk ∧
      rowmk.length = 2 * 6 - 1 ∧ rowk.reverse.length = 2 * 6 - 1 ∧
      (∀ i, i ≠ 6 - 1 → rowmk[i]? = rowk.reverse[i]?) ∧
      rowmk[6 - 1]? = (wireGroup threeWirePlane (-(((2 : ℕ) : ℤ)
        - ((threeWirePlane.paths.length / 6 / 2 : ℕ) : ℤ)))).getLast? ∧
      rowk.reverse[6 - 1]? = (wireGroup threeWirePlane (((2 : ℕ) : ℤ)
        - ((threeWirePlane.paths.length / 6 / 2 : ℕ) : ℤ))).getLast?) ∧
    (∃ row, threeWireInstance.m_bywire[threeWirePlane.paths.length / 6 / 2]? = some row ∧
      row.reverse = row) :=
  ⟨construct_threeWire, by decide!, by decide!,
    bywire_mirror sampleEnv threeWireField 0 twoBins 0 0 threeWireInstance threeWirePlane 2 6
      threeWire_plane construct_threeWire (by decide) (by decide!) (by decide!) (by decide)⟩

end WireCell
